import Mathlib

/-!
Verification of the shape-profile cache utilities of
`onnxruntime/core/providers/nv_tensorrt_rtx/nv_execution_provider_utils.h`.

The C++ code is shallowly embedded as follows.

* `std::unordered_map` is modelled as an association list with distinct keys;
  iteration order is the list order.  `operator[]` on a missing key of a map
  that is only read afterwards behaves like a lookup returning the default
  (empty) mapped value, which is how `lookupD` models it.
* `int64_t` values are modelled as `Int` (the code only copies and compares
  them, so no overflow arises); `size_t` dimension keys are modelled as `Nat`
  together with explicit `mod 2 ^ 64` conversions where the code converts
  between `int64_t` and `size_t`.
* The flexbuffers container holding a serialized profile is modelled by
  `FlexRoot`: either a map from tensor name to a typed vector of ints, or any
  non-map value (`FlexRoot.nonMap`); flexbuffers' `AsMap()` yields an empty
  map for the latter, which `asMap` reproduces.
* Out-of-bounds reads of `std::vector::operator[]` and similar undefined
  behaviour are modelled by returning `none` from an `Option`-valued function;
  C++ exceptions (`std::stoi`, `std::filesystem`, `std::string::substr`) are
  modelled with `Except`/`Option` error results.
* File existence is modelled by passing `Option FlexRoot` (or an association
  list of directories) instead of performing I/O.
-/

/-- Association-list lookup, modelling `unordered_map::find`. -/
def lookupList {κ α : Type} [DecidableEq κ] : List (κ × α) → κ → Option α
  | [], _ => none
  | (k, v) :: rest, k2 => if k2 = k then some v else lookupList rest k2

/-- Lookup with a default value, modelling `unordered_map::operator[]` on a
map that is subsequently only read: a missing key behaves like a
default-constructed (empty) mapped value. -/
def lookupD {κ α : Type} [DecidableEq κ] (m : List (κ × α)) (k : κ) (d : α) : α :=
  (lookupList m k).getD d

/-- Insert-or-assign, modelling `map[k] = v`: replaces the value of an
existing key in place, otherwise appends the new key at the end (modelling
insertion order as iteration order). -/
def setAssoc {κ α : Type} [DecidableEq κ] : List (κ × α) → κ → α → List (κ × α)
  | [], k, v => [(k, v)]
  | (k2, w) :: rest, k, v => if k = k2 then (k2, v) :: rest else (k2, w) :: setAssoc rest k v

/-- Modelling `if (m.find(k) == m.end()) m[k] = {}; m[k].push_back(v);`:
append `v` to the vector stored under `k`, creating the entry if absent. -/
def appendAt {κ α : Type} [DecidableEq κ] : List (κ × List α) → κ → α → List (κ × List α)
  | [], k, v => [(k, [v])]
  | (k2, vs) :: rest, k, v =>
    if k = k2 then (k2, vs ++ [v]) :: rest else (k2, vs) :: appendAt rest k v

/-- Conversion `int64_t -> size_t` (reduction modulo `2 ^ 64`). -/
def toNat64 (i : Int) : Nat :=
  (i % (2 ^ 64 : Int)).toNat

/-- Conversion `size_t -> int64_t` (the `int64_t` representative of a
`size_t` value, two's complement). -/
def toInt64 (d : Nat) : Int :=
  if d < 2 ^ 63 then (d : Int) else (d : Int) - 2 ^ 64

/-- Requested profile shapes
(`unordered_map<string, vector<vector<int64_t>>>`): tensor name to
per-profile flattened dimension vectors. -/
abbrev ProfileShapes := List (String × List (List Int))

/-- Deserialized shape ranges
(`unordered_map<string, unordered_map<size_t, vector<vector<int64_t>>>>`):
tensor name to dimension index to the per-profile `[min, max, opt]` triples. -/
abbrev ShapeRanges := List (String × List (Nat × List (List Int)))

/-- The root value of a flexbuffers profile file: either a map from tensor
name to a typed vector of `int64_t`, or any value that is not such a map
(flexbuffers' `AsMap()` returns the empty map for it, and `AsTypedVector()`
on a non-vector entry likewise yields the empty vector, which the empty
`List Int` covers). -/
inductive FlexRoot : Type where
  | map : List (String × List Int) → FlexRoot
  | nonMap : FlexRoot
deriving DecidableEq

/-- `flexbuffers::GetRoot(...).AsMap()` together with `Keys()`/`Values()`
iteration: a non-map root yields the empty map. -/
def asMap : FlexRoot → List (String × List Int)
  | FlexRoot.map entries => entries
  | FlexRoot.nonMap => []

/-- `GetNumProfiles` (source lines 34-43): the outer length of the first
entry of the map whose vector is non-empty, 0 if there is none. -/
def GetNumProfiles : ProfileShapes → Nat
  | [] => 0
  | (_, v) :: rest => if 0 < v.length then v.length else GetNumProfiles rest

/-- Inner loop of `DeserializeProfileV2` (source lines 257-270): consume the
flat typed vector in chunks of 4 (`dim, min, max, opt`); a trailing remainder
of fewer than 4 values is not consumed (the loop bound is `size() / 4`).
The chunk's triple is appended to the entry of the dimension key
(`inner_map[dim].push_back(shape_vector)` after a conditional insert). -/
def decodeFlatAux (acc : List (Nat × List (List Int))) : List Int → List (Nat × List (List Int))
  | d :: mn :: mx :: op :: rest => decodeFlatAux (appendAt acc (toNat64 d) [mn, mx, op]) rest
  | _ => acc

/-- `DeserializeProfileV2` (source lines 236-274). -/
def DeserializeProfileV2 (root : FlexRoot) : ShapeRanges :=
  (asMap root).foldl (fun acc e => setAssoc acc e.1 (decodeFlatAux [] e.2)) []

/-- Inner loop of the legacy `DeserializeProfile` (source lines 95-103):
chunks of 3 (`dim, min, max`), `inner_map[dim] = make_pair(min, max)`
overwrites an earlier chunk with the same dimension key; a trailing remainder
of fewer than 3 values is not consumed (the loop bound is `size() / 3`). -/
def decodeFlat3Aux (acc : List (Nat × (Int × Int))) : List Int → List (Nat × (Int × Int))
  | d :: mn :: mx :: rest => decodeFlat3Aux (setAssoc acc (toNat64 d) (mn, mx)) rest
  | _ => acc

/-- Legacy `DeserializeProfile` (source lines 81-105). -/
def DeserializeProfile (root : FlexRoot) : List (String × List (Nat × (Int × Int))) :=
  (asMap root).foldl (fun acc e => setAssoc acc e.1 (decodeFlat3Aux [] e.2)) []

/-- Serialization of the profiles of one dimension inside
`SerializeProfileV2` (source lines 166-173): for each profile emit
`dim, sv[0], sv[1], sv[2]`.  Reading `sv[0..2]` from a vector with fewer
than 3 entries is undefined behaviour, modelled as `none`. -/
def encProfiles (d : Nat) : List (List Int) → Option (List Int)
  | [] => some []
  | sv :: rest =>
    match sv with
    | a :: b :: c :: _ => (encProfiles d rest).map (fun l => toInt64 d :: a :: b :: c :: l)
    | _ => none

/-- Serialization of all dimensions of one tensor inside
`SerializeProfileV2` (source lines 164-174). -/
def encDims : List (Nat × List (List Int)) → Option (List Int)
  | [] => some []
  | (d, profs) :: rest =>
    match encProfiles d profs with
    | none => none
    | some l =>
      match encDims rest with
      | none => none
      | some r => some (l ++ r)

/-- `SerializeProfileV2` (source lines 156-186), producing the logical
content of the written flexbuffers map (file I/O abstracted away). -/
def SerializeProfileV2 : ShapeRanges → Option (List (String × List Int))
  | [] => some []
  | (t, dims) :: rest =>
    match encDims dims with
    | none => none
    | some l =>
      match SerializeProfileV2 rest with
      | none => none
      | some r => some ((t, l) :: r)

/-- The requested value `m[t][i][d]`, with `none` for any out-of-range
access (an out-of-range `vector::operator[]` is undefined behaviour). -/
def reqAt (m : ProfileShapes) (t : String) (i d : Nat) : Option Int :=
  ((lookupD m t [])[i]?).bind (fun w => w[d]?)

/-- One iteration of the innermost loop of `CompareProfiles`
(source lines 338-365) for stored triple `sv` of dimension `d` at profile
index `i`.  `some true` = mismatch (rebuild), `some false` = triple matches,
`none` = undefined behaviour (out-of-range vector read).  Note that the C++
bound check `dim > (profile_min_shapes[tensor_name][i].size() - 1)` is on an
unsigned `size_t`: when the vector is empty the subtraction wraps to
`SIZE_MAX`, the check never triggers and the subsequent `[dim]` read is out
of range, hence `none` for an empty min vector. -/
def compareOne (mins maxs opts : ProfileShapes) (t : String) (d i : Nat) (sv : List Int) : Option Bool :=
  match (lookupD mins t [])[i]? with
  | none => none
  | some minvec =>
    if minvec.length = 0 then none
    else if minvec.length - 1 < d then some true
    else
      (minvec[d]?).bind (fun mval =>
        (sv[0]?).bind (fun s0 =>
          if mval ≠ s0 then some true
          else (reqAt maxs t i d).bind (fun xval =>
            (sv[1]?).bind (fun s1 =>
              if xval ≠ s1 then some true
              else (reqAt opts t i d).bind (fun oval =>
                (sv[2]?).bind (fun s2 =>
                  if oval ≠ s2 then some true else some false))))))

/-- The profile loop of `CompareProfiles` (source line 338), iterating the
stored triples of one dimension with running profile index `i`. -/
def cmpTriples (mins maxs opts : ProfileShapes) (t : String) (d : Nat) : Nat → List (List Int) → Option Bool
  | _, [] => some false
  | i, sv :: rest =>
    match compareOne mins maxs opts t d i sv with
    | some false => cmpTriples mins maxs opts t d (i + 1) rest
    | r => r

/-- The dimension loop of `CompareProfiles` (source lines 329-336): the
stored profile count of every dimension must equal `GetNumProfiles` of the
requested min shapes. -/
def cmpDims (mins maxs opts : ProfileShapes) (t : String) : List (Nat × List (List Int)) → Option Bool
  | [] => some false
  | (d, profs) :: rest =>
    if profs.length ≠ GetNumProfiles mins then some true
    else
      match cmpTriples mins maxs opts t d 0 profs with
      | some false => cmpDims mins maxs opts t rest
      | r => r

/-- The tensor loop of `CompareProfiles` (source lines 322-327): every
stored tensor name must occur in the requested min shapes. -/
def cmpTensors (mins maxs opts : ProfileShapes) : ShapeRanges → Option Bool
  | [] => some false
  | (t, dims) :: rest =>
    if (lookupList mins t).isNone then some true
    else
      match cmpDims mins maxs opts t dims with
      | some false => cmpTensors mins maxs opts rest
      | r => r

/-- `CompareProfiles` (source lines 281-369).  The first argument is the
content of the profile file: `none` when the file does not exist (the
`ifstream` test at line 286 fails), otherwise the decoded flexbuffers root. -/
def CompareProfiles (file : Option FlexRoot) (profile_min_shapes profile_max_shapes profile_opt_shapes : ProfileShapes) : Option Bool :=
  match file with
  | none => some true
  | some root =>
    let shape_ranges := DeserializeProfileV2 root
    if profile_min_shapes.length ≠ shape_ranges.length then some true
    else cmpTensors profile_min_shapes profile_max_shapes profile_opt_shapes shape_ranges

/-- `CompareProfiles` with the file system modelled as an association list
from file name to file content. -/
def CompareProfilesFS (cache_files : List (String × FlexRoot)) (file_name : String) (mins maxs opts : ProfileShapes) : Option Bool :=
  CompareProfiles (lookupList cache_files file_name) mins maxs opts

/-- The loop of `ValidateProfileShapes` (source lines 535-550): every min
key must occur in max and opt with the same outer (profile count) length. -/
def validateLoop (maxs opts : ProfileShapes) : ProfileShapes → Bool
  | [] => true
  | (t, v) :: rest =>
    match lookupList maxs t, lookupList opts t with
    | some mv, some ov =>
      if v.length = mv.length ∧ v.length = ov.length then validateLoop maxs opts rest else false
    | _, _ => false

/-- `ValidateProfileShapes` (source lines 521-553).  Note the size guard at
lines 528-531 rejects only when all three pairwise sizes differ (`&&`). -/
def ValidateProfileShapes (profile_min_shapes profile_max_shapes profile_opt_shapes : ProfileShapes) : Bool :=
  if profile_min_shapes = [] ∧ profile_max_shapes = [] ∧ profile_opt_shapes = [] then true
  else if profile_min_shapes.length ≠ profile_max_shapes.length ∧
          profile_min_shapes.length ≠ profile_opt_shapes.length ∧
          profile_max_shapes.length ≠ profile_opt_shapes.length then false
  else validateLoop profile_max_shapes profile_opt_shapes profile_min_shapes

/-- `name` concatenated with itself `k` times. -/
def repStr (k : Nat) (name : String) : String :=
  match k with
  | 0 => ""
  | Nat.succ k2 => name ++ repStr k2 name

/-- The model-name repetition loop of `TRTGenerateId` (source lines 467-472):
`for (size_t i = L; i > 0 && i < 500; i += L) repeat_model_name += model_name;`.
The fuel argument only bounds the iteration count; 500 iterations always
suffice because `i` grows by at least 1 while it is below 500, and for an
empty name the guard `i > 0` fails immediately. -/
def repeatModelNameGo (name : String) : Nat → Nat → String → String
  | 0, _, acc => acc
  | Nat.succ fuel, i, acc =>
    if 0 < i ∧ i < 500 then repeatModelNameGo name fuel (i + name.length) (acc ++ name) else acc

/-- The repeated model name hashed by `TRTGenerateId` (source lines 466-473). -/
def repeatModelName (name : String) : String :=
  repeatModelNameGo name 500 name.length name

/-- The sequence of strings fed to the running MurmurHash3 state by
`TRTGenerateId` (source lines 445-519), abstracting each `hash_str` call to
the string it feeds.  The first argument is the model file name
(`main_graph.ModelPath().filename()`), `none` when
`ModelPath().has_filename()` is false; `rest` stands for the subsequent
feeds (graph input names, node output names, the OS tag and the version
strings, in order). -/
def TRTGenerateIdFeeds (model_file_name : Option String) (rest : List String) : List String :=
  match model_file_name with
  | none => rest
  | some name => repeatModelName name :: rest

/-- `split` (source lines 642-650): `std::getline`-based splitting.  An empty
input yields no tokens, and a trailing delimiter does not produce a trailing
empty token (after consuming it the stream is at end-of-file and the next
`getline` fails).  Stated structurally; `split_eq_takeWhile` below recovers
the direct getline formulation. -/
def split (delimiter : Char) : List Char → List (List Char)
  | [] => []
  | c :: rest =>
    if c = delimiter then
      [] :: (match rest with
             | [] => []
             | _ :: _ => split delimiter rest)
    else
      match split delimiter rest with
      | [] => [[c]]
      | t :: ts => (c :: t) :: ts

/-- `join` (source lines 652-661): concatenate with the delimiter between
consecutive tokens. -/
def join (vec : List (List Char)) (delimiter : List Char) : List Char :=
  List.intercalate delimiter vec

/-- `std::string::find` (first occurrence of `pat` in `s`), `none` for
`npos`. -/
def strFind (s pat : List Char) : Option Nat :=
  if pat.isPrefixOf s then some 0
  else
    match s with
    | [] => none
    | _ :: t => (strFind t pat).map (fun n => n + 1)

/-- `GetCacheSuffix` (source lines 671-685).  The returned `Option` is
`none` when the C++ code throws: `substr(index)` throws `std::out_of_range`
when `index` exceeds the length of `trt_node_name_with_precision` (and also
when `find` returned `npos`, which cannot happen here because the searched
token is a substring of `fused_node_name`). -/
def GetCacheSuffix (fused_node_name trt_node_name_with_precision : List Char) : Option (List Char) :=
  let split_fused_node_name := split '_' fused_node_name
  if 3 ≤ split_fused_node_name.length then
    let model_hash := split_fused_node_name.getD (split_fused_node_name.length - 3) []
    match strFind fused_node_name model_hash with
    | none => none
    | some index =>
      if index ≤ trt_node_name_with_precision.length then
        let suffix_group := split '_' (trt_node_name_with_precision.drop index)
        let suffix_group2 := if 2 < suffix_group.length then suffix_group.eraseIdx 2 else suffix_group
        some (join suffix_group2 ['_'])
      else none
  else some []

/-- The claim's reading of `GetCacheSuffix`: identical except that the first
occurrence of the digit-string is located inside `trt_node_name_with_precision`
rather than inside `fused_node_name`.  Stated only to be refuted. -/
def GetCacheSuffixClaimed (fused_node_name trt_node_name_with_precision : List Char) : Option (List Char) :=
  let split_fused_node_name := split '_' fused_node_name
  if 3 ≤ split_fused_node_name.length then
    let model_hash := split_fused_node_name.getD (split_fused_node_name.length - 3) []
    match strFind trt_node_name_with_precision model_hash with
    | none => none
    | some index =>
      let suffix_group := split '_' (trt_node_name_with_precision.drop index)
      let suffix_group2 := if 2 < suffix_group.length then suffix_group.eraseIdx 2 else suffix_group
      some (join suffix_group2 ['_'])
  else some []

/-- The whitespace set skipped by `std::stoi` via `std::isspace`. -/
def isSpaceCpp (c : Char) : Bool :=
  c = ' ' || c = '\t' || c = '\n' || c = '\r' || c = '\x0b' || c = '\x0c'

/-- Decimal value of a digit string. -/
def digitsToNat (ds : List Char) : Nat :=
  ds.foldl (fun a c => a * 10 + (c.toNat - 48)) 0

/-- `std::stoi` (base 10): skip leading whitespace, optional sign, then a
non-empty run of decimal digits; `Except.error` models the
`std::invalid_argument` exception when no digits are found and the
`std::out_of_range` exception when the value does not fit in `int`. -/
def stoiCpp (s : List Char) : Except Unit Int :=
  let s1 := s.dropWhile isSpaceCpp
  let signed : Int × List Char :=
    match s1 with
    | '-' :: t => (-1, t)
    | '+' :: t => (1, t)
    | _ => (1, s1)
  let ds := signed.2.takeWhile Char.isDigit
  if ds = [] then Except.error ()
  else
    let v : Int := signed.1 * (digitsToNat ds : Int)
    if v < -(2 ^ 31) || (2 ^ 31 - 1 : Int) < v then Except.error () else Except.ok v

/-- `MakeInputNameShapePair` (source lines 566-597).  `Except.error` models
an exception escaping from `std::stoi`; `Except.ok none` models returning
`false`; `Except.ok (some pair)` models returning `true` with the out
parameter set.  An empty input returns `true` without touching the caller's
freshly default-constructed pair, hence `some ([], [])`. -/
def MakeInputNameShapePair (pair_string : List Char) : Except Unit (Option (List Char × List Int)) :=
  if pair_string = [] then Except.ok (some ([], []))
  else
    let input_name := pair_string.takeWhile (fun c => c != ':')
    let rest := pair_string.dropWhile (fun c => c != ':')
    let shape : List Char :=
      match rest with
      | [] => []
      | _ :: r => r.takeWhile (fun c => c != ':')
    match (split 'x' shape).mapM stoiCpp with
    | Except.error u => Except.error u
    | Except.ok shapes =>
      if input_name = [] ∨ shapes = [] then Except.ok none
      else Except.ok (some (input_name, shapes))

/-- The entry loop of `ParseProfileShapes` (source lines 617-637), threading
the accumulated map. -/
def ParseProfileShapesGo (acc : List (List Char × List (List Int))) : List (List Char) → Except Unit (Option (List (List Char × List (List Int))))
  | [] => Except.ok (some acc)
  | e :: rest =>
    match MakeInputNameShapePair e with
    | Except.error u => Except.error u
    | Except.ok none => Except.ok none
    | Except.ok (some p) => ParseProfileShapesGo (appendAt acc p.1 p.2) rest

/-- `ParseProfileShapes` (source lines 609-640).  `Except.error` models an
uncaught `std::stoi` exception; `Except.ok none` models the boolean failure
return `false` (the partially filled out parameter is discarded);
`Except.ok (some m)` models success with resulting map `m`. -/
def ParseProfileShapes (profile_shapes_string : List Char) : Except Unit (Option (List (List Char × List (List Int)))) :=
  ParseProfileShapesGo [] (split ',' profile_shapes_string)

/-- Whether an `Except` result is a success. -/
def exceptIsOk (e : Except Unit Int) : Bool :=
  match e with
  | Except.ok _ => true
  | Except.error _ => false

/-- The name part of a shape-spec entry (`getline` up to the first colon). -/
def entryNameOf (e : List Char) : List Char :=
  e.takeWhile (fun c => c != ':')

/-- The shape part of a shape-spec entry (`getline` between the first and
second colon, empty when there is no colon). -/
def entryShapeOf (e : List Char) : List Char :=
  match e.dropWhile (fun c => c != ':') with
  | [] => []
  | _ :: r => r.takeWhile (fun c => c != ':')

/-- The `x`-separated tokens of the shape part of an entry. -/
def entryShapeTokens (e : List Char) : List (List Char) :=
  split 'x' (entryShapeOf e)

/-- The parsed dimension extents of an entry (tokens on which `std::stoi`
fails are skipped; under `entryWF` there are none). -/
def entryShapeVals (e : List Char) : List Int :=
  (entryShapeTokens e).filterMap (fun tok =>
    match stoiCpp tok with
    | Except.ok v => some v
    | Except.error _ => none)

/-- A well-formed shape-spec entry: non-empty, with a non-empty name, a
non-empty token list and every token accepted by `std::stoi`. -/
def entryWF (e : List Char) : Prop :=
  e ≠ [] ∧ entryNameOf e ≠ [] ∧ entryShapeTokens e ≠ [] ∧
    ∀ tok ∈ entryShapeTokens e, exceptIsOk (stoiCpp tok) = true

/-- A malformed non-empty shape-spec entry: empty name, empty shape, or a
token rejected by `std::stoi`. -/
def entryBad (e : List Char) : Prop :=
  e ≠ [] ∧ (entryNameOf e = [] ∨ entryShapeTokens e = [] ∨
    ∃ tok ∈ entryShapeTokens e, exceptIsOk (stoiCpp tok) = false)

/-- The index of the last dot of a file name. -/
def lastDotIdx (l : List Char) : Option Nat :=
  match (l.reverse).findIdx? (fun c => c = '.') with
  | none => none
  | some j => some (l.length - 1 - j)

/-- `std::filesystem::path::extension()` on a file name: empty for `.` and
`..`, empty when there is no dot or the only dot is the leading one (a
hidden file like `.profile` has no extension), otherwise the suffix starting
at the last dot. -/
def pathExtension (name : List Char) : List Char :=
  if name = ['.'] || name = ['.', '.'] then []
  else
    match lastDotIdx name with
    | none => []
    | some 0 => []
    | some i => name.drop i

/-- `GetCachesByType` (source lines 411-419), with the file system modelled
as an association list from directory path to the list of entry file names.
Constructing `fs::directory_iterator(root)` for a path that does not exist
or is not a directory throws `std::filesystem::filesystem_error`, modelled
by `Except.error`.  For an existing directory the entries whose extension
equals `file_extension` are returned as full paths. -/
def GetCachesByType (dirs : List (List Char × List (List Char))) (root : List Char) (file_extension : List Char) : Except Unit (List (List Char)) :=
  match lookupList dirs root with
  | none => Except.error ()
  | some entries =>
    Except.ok ((entries.filter (fun n => pathExtension n == file_extension)).map (fun n => root ++ '/' :: n))

/-- One stored `(tensor, dimension, profile-index)` triple `sv` matches the
requested shapes when the requested min, max and opt values at dimension
index `d` of profile `i` of tensor `t` exist and equal the stored
`sv[0], sv[1], sv[2]` (exact integer equality). -/
def storedTripleMatches (mins maxs opts : ProfileShapes) (t : String) (d i : Nat) (sv : List Int) : Prop :=
  reqAt mins t i d = sv[0]? ∧ sv[0]? ≠ none ∧
  reqAt maxs t i d = sv[1]? ∧ sv[1]? ≠ none ∧
  reqAt opts t i d = sv[2]? ∧ sv[2]? ≠ none

/-- The condition of claim C1: every stored (tensor, dimension,
profile-index) triple matches the requested min, max and opt values. -/
def allStoredTriplesMatch (stored : ShapeRanges) (mins maxs opts : ProfileShapes) : Prop :=
  ∀ td ∈ stored, ∀ dp ∈ td.2, ∀ i, i < dp.2.length →
    storedTripleMatches mins maxs opts td.1 dp.1 i (dp.2.getD i [])

/-- Full compatibility of a stored profile set with the requested shapes:
the structural conditions of `CompareProfiles` (equal tensor counts, every
stored tensor present in the requested min shapes, stored profile count of
every dimension equal to `GetNumProfiles` of the requested min shapes)
together with every stored triple matching. -/
def profilesCompatible (stored : ShapeRanges) (mins maxs opts : ProfileShapes) : Prop :=
  mins.length = stored.length ∧
  ∀ td ∈ stored, lookupList mins td.1 ≠ none ∧
    ∀ dp ∈ td.2, dp.2.length = GetNumProfiles mins ∧
      ∀ i, i < dp.2.length →
        storedTripleMatches mins maxs opts td.1 dp.1 i (dp.2.getD i [])

/-- The requested min vector at profile `i` of tensor `t` exists, is
non-empty, and the max and opt vectors at the same position have the same
length. -/
def minVecOk (mins maxs opts : ProfileShapes) (t : String) (i : Nat) : Prop :=
  ∃ w, (lookupD mins t [])[i]? = some w ∧ w ≠ [] ∧
    ((lookupD maxs t [])[i]?).map List.length = some w.length ∧
    ((lookupD opts t [])[i]?).map List.length = some w.length

/-- The condition of claim C3: the three maps are empty together, or they
have identical key sets with identical per-key outer lengths. -/
def sameKeySetsAndCounts (mins maxs opts : ProfileShapes) : Prop :=
  (∀ tv ∈ mins, lookupList maxs tv.1 ≠ none ∧ lookupList opts tv.1 ≠ none ∧
    (lookupD maxs tv.1 []).length = tv.2.length ∧ (lookupD opts tv.1 []).length = tv.2.length) ∧
  (∀ tv ∈ maxs, lookupList mins tv.1 ≠ none) ∧
  (∀ tv ∈ opts, lookupList mins tv.1 ≠ none)

/-- Well-formedness of a `ShapeRanges` value as a `ShapeProfileSet` of the
data model: distinct tensor keys, distinct dimension keys, every dimension
key a `size_t` value, every dimension carrying the same profile count `p`,
and every stored shape vector an actual `(min, max, opt)` triple. -/
def wellFormedSPS (x : ShapeRanges) (p : Nat) : Prop :=
  1 ≤ p ∧ (x.map Prod.fst).Nodup ∧
  ∀ td ∈ x, (td.2.map Prod.fst).Nodup ∧
    ∀ dp ∈ td.2, dp.1 < 2 ^ 64 ∧ dp.2.length = p ∧ ∀ sv ∈ dp.2, sv.length = 3

instance decidableEntryWF (e : List Char) : Decidable (entryWF e) := by
  unfold entryWF
  infer_instance

instance decidableEntryBad (e : List Char) : Decidable (entryBad e) := by
  unfold entryBad
  infer_instance

instance decidableStoredTripleMatches (mins maxs opts : ProfileShapes) (t : String) (d i : Nat) (sv : List Int) :
    Decidable (storedTripleMatches mins maxs opts t d i sv) := by
  unfold storedTripleMatches
  infer_instance

instance decidableAllStoredTriplesMatch (stored : ShapeRanges) (mins maxs opts : ProfileShapes) :
    Decidable (allStoredTriplesMatch stored mins maxs opts) := by
  unfold allStoredTriplesMatch
  infer_instance

instance decidableProfilesCompatible (stored : ShapeRanges) (mins maxs opts : ProfileShapes) :
    Decidable (profilesCompatible stored mins maxs opts) := by
  unfold profilesCompatible
  infer_instance

instance decidableSameKeySetsAndCounts (mins maxs opts : ProfileShapes) :
    Decidable (sameKeySetsAndCounts mins maxs opts) := by
  unfold sameKeySetsAndCounts
  infer_instance

instance decidableWellFormedSPS (x : ShapeRanges) (p : Nat) : Decidable (wellFormedSPS x p) := by
  unfold wellFormedSPS
  infer_instance

/-! ## Lemmas and theorems -/

theorem lookupList_eq_some_mem {κ α : Type} [DecidableEq κ] {m : List (κ × α)} {k : κ} {v : α} (h : lookupList m k = some v) : (k, v) ∈ m := by
  induction m with
  | nil => simp [lookupList] at h
  | cons hd tl ih =>
    obtain ⟨k2, w⟩ := hd
    simp only [lookupList] at h
    by_cases hk : k = k2
    · subst hk
      simp at h
      subst h
      exact List.mem_cons_self _ _
    · simp [hk] at h
      exact List.mem_cons_of_mem _ (ih h)

theorem lookupList_isSome_of_mem {κ α : Type} [DecidableEq κ] {m : List (κ × α)} {k : κ} {v : α} (h : (k, v) ∈ m) : lookupList m k ≠ none := by
  induction m with
  | nil => simp at h
  | cons hd tl ih =>
    obtain ⟨k2, w⟩ := hd
    simp only [lookupList]
    by_cases hk : k = k2
    · simp [hk]
    · simp only [hk, if_false]
      rcases List.mem_cons.mp h with h1 | h2
      · exact absurd (congrArg Prod.fst h1) hk
      · exact ih h2

/-- C9: for every path at which no cache file exists (the `ifstream` open
fails) and every requested min/max/opt shape mapping, `CompareProfiles`
returns true (source lines 285-289). -/
theorem CompareProfilesFS_missing_file (cache_files : List (String × FlexRoot)) (file_name : String) (mins maxs opts : ProfileShapes) (h : lookupList cache_files file_name = none) :
    CompareProfilesFS cache_files file_name mins maxs opts = some true := by
  unfold CompareProfilesFS
  rw [h]
  rfl

theorem CompareProfilesFS_missing_file_witness :
    lookupList ([] : List (String × FlexRoot)) "model.profile" = none ∧
    CompareProfilesFS [] "model.profile" [("x", [[1]])] [("x", [[10]])] [("x", [[5]])] = some true :=
  ⟨rfl, CompareProfilesFS_missing_file [] "model.profile" [("x", [[1]])] [("x", [[10]])] [("x", [[5]])] rfl⟩

/-- C7 counterexample: for a root directory that does not exist,
`GetCachesByType` does not return an empty sequence (or any sequence); the
`fs::directory_iterator` constructor throws `std::filesystem::filesystem_error`,
here surfaced as `Except.error`. -/
theorem GetCachesByType_counterexample :
    GetCachesByType [] ("r".data) (".engine".data) = Except.error () ∧
    ∀ l, GetCachesByType [] ("r".data) (".engine".data) ≠ Except.ok l := by
  constructor
  · rfl
  · intro l h
    simp [GetCachesByType, lookupList] at h

/-- C7 (amended): for a root that does not exist or is not a directory,
`GetCachesByType` propagates a filesystem error (it does not return an empty
sequence); for an existing directory it returns exactly the non-recursive
entries whose file extension equals the given extension. -/
theorem GetCachesByType_spec (dirs : List (List Char × List (List Char))) (root file_extension : List Char) :
    (lookupList dirs root = none → GetCachesByType dirs root file_extension = Except.error ()) ∧
    (∀ entries, lookupList dirs root = some entries →
      ∃ l, GetCachesByType dirs root file_extension = Except.ok l ∧
        ∀ p, p ∈ l ↔ ∃ n ∈ entries, pathExtension n = file_extension ∧ p = root ++ '/' :: n) := by
  constructor
  · intro h
    unfold GetCachesByType
    rw [h]
  · intro entries h
    refine ⟨_, by unfold GetCachesByType; rw [h], ?_⟩
    intro p
    simp only [List.mem_map, List.mem_filter, beq_iff_eq]
    constructor
    · rintro ⟨n, ⟨hn, hext⟩, rfl⟩
      exact ⟨n, hn, hext, rfl⟩
    · rintro ⟨n, hn, hext, rfl⟩
      exact ⟨n, ⟨hn, hext⟩, rfl⟩

theorem GetCachesByType_spec_witness :
    lookupList [(("d".data : List Char), ["a.engine".data, "b.profile".data, "c.engine".data])] ("d".data) = some ["a.engine".data, "b.profile".data, "c.engine".data] ∧
    ∃ l, GetCachesByType [(("d".data : List Char), ["a.engine".data, "b.profile".data, "c.engine".data])] ("d".data) (".engine".data) = Except.ok l ∧
      ∀ p, p ∈ l ↔ ∃ n ∈ ["a.engine".data, "b.profile".data, "c.engine".data], pathExtension n = ".engine".data ∧ p = "d".data ++ '/' :: n :=
  ⟨rfl, (GetCachesByType_spec _ _ _).2 _ rfl⟩

theorem decodeFlatAux_short (acc : List (Nat × List (List Int))) (l : List Int) (h : l.length < 4) : decodeFlatAux acc l = acc := by
  match l with
  | [] => rfl
  | [a] => rfl
  | [a, b] => rfl
  | [a, b, c] => rfl
  | a :: b :: c :: d :: rest =>
    exfalso
    simp at h
    omega

theorem decodeFlat3Aux_short (acc : List (Nat × (Int × Int))) (l : List Int) (h : l.length < 3) : decodeFlat3Aux acc l = acc := by
  match l with
  | [] => rfl
  | [a] => rfl
  | [a, b] => rfl
  | a :: b :: c :: rest =>
    exfalso
    simp at h
    omega

theorem decodeFlatAux_append4 : ∀ (n : Nat) (l1 : List Int), l1.length = n → n % 4 = 0 → ∀ (acc : List (Nat × List (List Int))) (l2 : List Int), decodeFlatAux acc (l1 ++ l2) = decodeFlatAux (decodeFlatAux acc l1) l2 := by
  intro n
  induction n using Nat.strong_induction_on with
  | _ n ih =>
    intro l1 hlen hmod acc l2
    rcases l1 with _ | ⟨a, _ | ⟨b, _ | ⟨c, _ | ⟨d, rest⟩⟩⟩⟩
    · rfl
    · exfalso; simp at hlen; omega
    · exfalso; simp at hlen; omega
    · exfalso; simp at hlen; omega
    · simp only [List.length_cons] at hlen
      simp only [List.cons_append, decodeFlatAux]
      exact ih (n - 4) (by omega) rest (by omega) (by omega) _ l2

theorem decodeFlat3Aux_append3 : ∀ (n : Nat) (l1 : List Int), l1.length = n → n % 3 = 0 → ∀ (acc : List (Nat × (Int × Int))) (l2 : List Int), decodeFlat3Aux acc (l1 ++ l2) = decodeFlat3Aux (decodeFlat3Aux acc l1) l2 := by
  intro n
  induction n using Nat.strong_induction_on with
  | _ n ih =>
    intro l1 hlen hmod acc l2
    rcases l1 with _ | ⟨a, _ | ⟨b, _ | ⟨c, rest⟩⟩⟩
    · rfl
    · exfalso; simp at hlen; omega
    · exfalso; simp at hlen; omega
    · simp only [List.length_cons] at hlen
      simp only [List.cons_append, decodeFlat3Aux]
      exact ih (n - 3) (by omega) rest (by omega) (by omega) _ l2

/-- C4 (amended): decoding never signals an error.  A flat value sequence
whose length is not a multiple of 4 (current format) or 3 (legacy format)
has its trailing remainder silently ignored (the loop bounds are
`size() / 4` and `size() / 3`), and a root container that is not a map
decodes as the empty profile set (`AsMap()` on a non-map yields the empty
map). -/
theorem Deserialize_malformed_behavior :
    (DeserializeProfileV2 FlexRoot.nonMap = [] ∧ DeserializeProfile FlexRoot.nonMap = []) ∧
    (∀ (t : String) (flat extra : List Int) (rest : List (String × List Int)),
      flat.length % 4 = 0 → extra.length < 4 →
      DeserializeProfileV2 (FlexRoot.map ((t, flat ++ extra) :: rest)) =
        DeserializeProfileV2 (FlexRoot.map ((t, flat) :: rest))) ∧
    (∀ (t : String) (flat extra : List Int) (rest : List (String × List Int)),
      flat.length % 3 = 0 → extra.length < 3 →
      DeserializeProfile (FlexRoot.map ((t, flat ++ extra) :: rest)) =
        DeserializeProfile (FlexRoot.map ((t, flat) :: rest))) := by
  refine ⟨⟨rfl, rfl⟩, ?_, ?_⟩
  · intro t flat extra rest h4 hx
    unfold DeserializeProfileV2
    simp only [asMap, List.foldl_cons]
    rw [decodeFlatAux_append4 flat.length flat rfl h4, decodeFlatAux_short _ extra hx]
  · intro t flat extra rest h3 hx
    unfold DeserializeProfile
    simp only [asMap, List.foldl_cons]
    rw [decodeFlat3Aux_append3 flat.length flat rfl h3, decodeFlat3Aux_short _ extra hx]

theorem Deserialize_malformed_behavior_witness :
    (([0, 1, 10, 5] : List Int).length % 4 = 0 ∧ ([7] : List Int).length < 4 ∧
      DeserializeProfileV2 (FlexRoot.map [("x", [0, 1, 10, 5] ++ [7])]) =
        DeserializeProfileV2 (FlexRoot.map [("x", [0, 1, 10, 5])])) ∧
    (([0, 1, 10] : List Int).length % 3 = 0 ∧ ([7] : List Int).length < 3 ∧
      DeserializeProfile (FlexRoot.map [("x", [0, 1, 10] ++ [7])]) =
        DeserializeProfile (FlexRoot.map [("x", [0, 1, 10])])) :=
  ⟨⟨by decide, by decide, Deserialize_malformed_behavior.2.1 "x" [0, 1, 10, 5] [7] [] (by decide) (by decide)⟩,
   ⟨by decide, by decide, Deserialize_malformed_behavior.2.2 "x" [0, 1, 10] [7] [] (by decide) (by decide)⟩⟩

/-- C4 counterexample: decoding a tensor whose flat value sequence has
length 5 (current format) or 4 (legacy format) does not fail with any
malformed-data condition; it returns a normal profile set with the trailing
value dropped, and a non-map root decodes to the empty set. -/
theorem Deserialize_malformed_counterexample :
    DeserializeProfileV2 (FlexRoot.map [("x", [0, 1, 10, 5, 7])]) = [("x", [(0, [[1, 10, 5]])])] ∧
    DeserializeProfile (FlexRoot.map [("x", [0, 1, 10, 7])]) = [("x", [(0, (1, 10))])] ∧
    DeserializeProfileV2 FlexRoot.nonMap = [] := by
  refine ⟨?_, ?_, rfl⟩
  · decide
  · decide

theorem validateLoop_eq_true_iff (maxs opts : ProfileShapes) (l : ProfileShapes) :
    validateLoop maxs opts l = true ↔
      ∀ tv ∈ l, ∃ mv ov, lookupList maxs tv.1 = some mv ∧ lookupList opts tv.1 = some ov ∧
        tv.2.length = mv.length ∧ tv.2.length = ov.length := by
  induction l with
  | nil => simp [validateLoop]
  | cons hd tl ih =>
    obtain ⟨t, v⟩ := hd
    simp only [validateLoop]
    cases hm : lookupList maxs t with
    | none =>
      simp only [Bool.false_eq_true, false_iff, List.mem_cons]
      intro hall
      obtain ⟨mv, ov, hmv, _, _, _⟩ := hall (t, v) (Or.inl rfl)
      rw [hm] at hmv
      exact Option.noConfusion hmv
    | some mv =>
      cases ho : lookupList opts t with
      | none =>
        simp only [Bool.false_eq_true, false_iff, List.mem_cons]
        intro hall
        obtain ⟨mv2, ov, _, hov, _, _⟩ := hall (t, v) (Or.inl rfl)
        rw [ho] at hov
        exact Option.noConfusion hov
      | some ov =>
        change (if v.length = mv.length ∧ v.length = ov.length then validateLoop maxs opts tl else false) = true ↔ _
        by_cases hlen : v.length = mv.length ∧ v.length = ov.length
        · rw [if_pos hlen, ih]
          simp only [List.mem_cons]
          constructor
          · intro hall tv htv
            rcases htv with rfl | htv
            · exact ⟨mv, ov, hm, ho, hlen.1, hlen.2⟩
            · exact hall tv htv
          · intro hall tv htv
            exact hall tv (Or.inr htv)
        · rw [if_neg hlen]
          simp only [Bool.false_eq_true, false_iff, List.mem_cons]
          intro hall
          obtain ⟨mv2, ov2, hmv2, hov2, h1, h2⟩ := hall (t, v) (Or.inl rfl)
          rw [hm] at hmv2
          rw [ho] at hov2
          cases hmv2
          cases hov2
          exact hlen ⟨h1, h2⟩

/-- C3 (amended): `ValidateProfileShapes` returns true iff all three maps
are empty together, or otherwise: at least one of the three pairwise size
equalities holds (the size guard at lines 528-531 rejects only when all
three pairwise sizes differ), and every key of the min map occurs in the max
and opt maps with the same outer (profile count) length.  Keys occurring
only in max or opt are never examined, so identical key sets are not
required. -/
theorem ValidateProfileShapes_true_iff (mins maxs opts : ProfileShapes) :
    ValidateProfileShapes mins maxs opts = true ↔
      ((mins = [] ∧ maxs = [] ∧ opts = []) ∨
       ((mins.length = maxs.length ∨ mins.length = opts.length ∨ maxs.length = opts.length) ∧
        ∀ tv ∈ mins, ∃ mv ov, lookupList maxs tv.1 = some mv ∧ lookupList opts tv.1 = some ov ∧
          tv.2.length = mv.length ∧ tv.2.length = ov.length)) := by
  by_cases he : mins = [] ∧ maxs = [] ∧ opts = []
  · obtain ⟨rfl, rfl, rfl⟩ := he
    simp [ValidateProfileShapes]
  · unfold ValidateProfileShapes
    rw [if_neg he]
    by_cases hs : mins.length ≠ maxs.length ∧ mins.length ≠ opts.length ∧ maxs.length ≠ opts.length
    · rw [if_pos hs]
      simp only [Bool.false_eq_true, false_iff]
      intro hor
      rcases hor with h1 | ⟨h2, _⟩
      · exact he h1
      · tauto
    · rw [if_neg hs, validateLoop_eq_true_iff]
      constructor
      · intro hall
        refine Or.inr ⟨?_, hall⟩
        tauto
      · rintro (h1 | ⟨h2, hall⟩)
        · exact absurd h1 he
        · exact hall

/-- C3 counterexample: with min empty and max = opt = a one-entry map,
`ValidateProfileShapes` returns true even though the three maps are neither
all empty nor have identical key sets; the claim requires false here. -/
theorem ValidateProfileShapes_counterexample :
    ValidateProfileShapes [] [("x", [[1]])] [("x", [[1]])] = true ∧
    ¬ ((([] : ProfileShapes) = [] ∧ ([("x", [[1]])] : ProfileShapes) = [] ∧ ([("x", [[1]])] : ProfileShapes) = []) ∨
       sameKeySetsAndCounts [] [("x", [[1]])] [("x", [[1]])]) := by
  constructor
  · decide
  · intro h
    rcases h with ⟨_, h1, _⟩ | ⟨_, h2, _⟩
    · exact List.noConfusion h1
    · have := h2 ("x", [[1]]) (List.mem_cons_self _ _)
      simp [lookupList] at this

theorem repStr_length (k : Nat) (name : String) : (repStr k name).length = k * name.length := by
  induction k with
  | zero => simp [repStr]
  | succ k2 ih =>
    show (name ++ repStr k2 name).length = (k2 + 1) * name.length
    rw [String.length_append, ih]
    ring

theorem repeatCountStep (L i : Nat) (hL : 0 < L) (hi : i < 500) :
    (500 - i + L - 1) / L = (500 - (i + L) + L - 1) / L + 1 := by
  by_cases h : 500 - i ≤ L
  · have h1 : 500 - (i + L) + L - 1 = L - 1 := by omega
    have h2 : (L - 1) / L = 0 := Nat.div_eq_of_lt (by omega)
    have h3 : (500 - i + L - 1) / L = 1 := by
      apply Nat.div_eq_of_lt_le
      · omega
      · omega
    rw [h1, h2, h3]
  · have h1 : 500 - (i + L) + L - 1 = 500 - i - 1 := by omega
    have h2 : 500 - i + L - 1 = (500 - i - 1) + L := by omega
    rw [h1, h2, Nat.add_div_right _ hL]

theorem repeatModelNameGo_spec (name : String) (hL : 0 < name.length) :
    ∀ (fuel i : Nat) (acc : String), 0 < i → (500 - i + name.length - 1) / name.length ≤ fuel →
      repeatModelNameGo name fuel i acc = acc ++ repStr ((500 - i + name.length - 1) / name.length) name := by
  intro fuel
  induction fuel with
  | zero =>
    intro i acc hi hc
    have hc0 : (500 - i + name.length - 1) / name.length = 0 := Nat.le_zero.mp hc
    rw [hc0]
    show acc = acc ++ ""
    rw [String.append_empty]
  | succ fuel ih =>
    intro i acc hi hc
    by_cases h5 : i < 500
    · have hguard : repeatModelNameGo name (fuel + 1) i acc = repeatModelNameGo name fuel (i + name.length) (acc ++ name) := by
        show (if 0 < i ∧ i < 500 then repeatModelNameGo name fuel (i + name.length) (acc ++ name) else acc) = _
        rw [if_pos ⟨hi, h5⟩]
      have hstep := repeatCountStep name.length i hL h5
      have harg : (500 - (i + name.length) + name.length - 1) / name.length ≤ fuel := by omega
      rw [hguard, ih (i + name.length) (acc ++ name) (by omega) harg, hstep]
      show acc ++ name ++ repStr _ name = acc ++ (name ++ repStr _ name)
      rw [String.append_assoc]
    · have hc0 : (500 - i + name.length - 1) / name.length = 0 := by
        have h0 : 500 - i = 0 := by omega
        rw [h0]
        exact Nat.div_eq_of_lt (by omega)
      rw [hc0]
      show (if 0 < i ∧ i < 500 then repeatModelNameGo name fuel (i + name.length) (acc ++ name) else acc) = acc ++ ""
      rw [if_neg (by omega), String.append_empty]

/-- C5: in `TRTGenerateId`, for every non-empty model file name the string
fed to the hash in the file-name step is the file name concatenated with
itself the least number `k` of times such that `k * length ≥ 500` (so
exactly once when the name is already at least 500 characters long); when
the graph has no known file name this step is skipped entirely and no
placeholder is fed. -/
theorem TRTGenerateId_filename_step (name : String) (rest : List String) (h : 0 < name.length) :
    TRTGenerateIdFeeds none rest = rest ∧
    ∃ k, TRTGenerateIdFeeds (some name) rest = repStr k name :: rest ∧
      (repStr k name).length = k * name.length ∧
      500 ≤ k * name.length ∧ (∀ j, 500 ≤ j * name.length → k ≤ j) := by
  refine ⟨rfl, (500 - name.length + name.length - 1) / name.length + 1, ?_, repStr_length _ _, ?_, ?_⟩
  · show repeatModelName name :: rest = _
    unfold repeatModelName
    have harg : (500 - name.length + name.length - 1) / name.length ≤ 500 := by
      by_cases hsmall : name.length ≤ 500
      · have hx : 500 - name.length + name.length - 1 = 499 := by omega
        rw [hx]
        have := Nat.div_le_self 499 name.length
        omega
      · have hx : 500 - name.length + name.length - 1 = name.length - 1 := by omega
        rw [hx, Nat.div_eq_of_lt (by omega)]
        omega
    rw [repeatModelNameGo_spec name h 500 name.length name h harg]
    rfl
  · by_cases hsmall : name.length ≤ 500
    · have hx : 500 - name.length + name.length - 1 = 499 := by omega
      rw [hx, Nat.add_mul, Nat.one_mul]
      have h1 := Nat.div_add_mod' 499 name.length
      have h2 : 499 % name.length < name.length := Nat.mod_lt _ h
      omega
    · have hx : 500 - name.length + name.length - 1 = name.length - 1 := by omega
      rw [hx, Nat.div_eq_of_lt (by omega)]
      omega
  · intro j hj
    by_contra hlt
    push_neg at hlt
    by_cases hsmall : name.length ≤ 500
    · have hx : 500 - name.length + name.length - 1 = 499 := by omega
      rw [hx] at hlt
      have hle : j ≤ 499 / name.length := by omega
      have h2 : j * name.length ≤ 499 / name.length * name.length := Nat.mul_le_mul_right _ hle
      have h1 := Nat.div_add_mod' 499 name.length
      omega
    · have hx : 500 - name.length + name.length - 1 = name.length - 1 := by omega
      rw [hx, Nat.div_eq_of_lt (by omega)] at hlt
      have hj0 : j = 0 := by omega
      subst hj0
      simp at hj

theorem TRTGenerateId_filename_step_witness :
    0 < ("ab" : String).length ∧
    (TRTGenerateIdFeeds none ["i1", "o1"] = ["i1", "o1"] ∧
     ∃ k, TRTGenerateIdFeeds (some "ab") ["i1", "o1"] = repStr k "ab" :: ["i1", "o1"] ∧
       (repStr k "ab").length = k * ("ab" : String).length ∧
       500 ≤ k * ("ab" : String).length ∧ (∀ j, 500 ≤ j * ("ab" : String).length → k ≤ j)) :=
  ⟨by decide, TRTGenerateId_filename_step "ab" ["i1", "o1"] (by decide)⟩

theorem split_eq_cons (d : Char) (s : List Char) (h : s ≠ []) :
    split d s = s.takeWhile (fun c => c != d) ::
      (match s.dropWhile (fun c => c != d) with
       | [] => []
       | _ :: r => split d r) := by
  induction s with
  | nil => exact absurd rfl h
  | cons c rest ih =>
    by_cases hc : c = d
    · subst hc
      simp only [split, if_pos rfl, List.takeWhile_cons, bne_self_eq_false, Bool.false_eq_true,
        if_false, List.dropWhile_cons]
      cases rest with
      | nil => rfl
      | cons r0 rr => rfl
    · have hb : (c != d) = true := bne_iff_ne.mpr hc
      simp only [split, if_neg hc, List.takeWhile_cons, hb, if_true, List.dropWhile_cons]
      cases rest with
      | nil => rfl
      | cons r0 rr =>
        rw [ih (by simp)]

theorem split_token_infix (d : Char) : ∀ (n : Nat) (s : List Char), s.length ≤ n → ∀ t ∈ split d s, t <:+: s := by
  intro n
  induction n with
  | zero =>
    intro s hs t ht
    have : s = [] := List.length_eq_zero.mp (Nat.le_zero.mp hs)
    subst this
    simp [split] at ht
  | succ n ih =>
    intro s hs t ht
    cases s with
    | nil => simp [split] at ht
    | cons c rest =>
      rw [split_eq_cons d (c :: rest) (by simp)] at ht
      rcases List.mem_cons.mp ht with rfl | ht2
      · exact (List.takeWhile_prefix _).isInfix
      · cases hdw : (c :: rest).dropWhile (fun x => x != d) with
        | nil =>
          rw [hdw] at ht2
          simp at ht2
        | cons x r =>
          rw [hdw] at ht2
          have hsuf : x :: r <:+ c :: rest := by
            rw [← hdw]
            exact List.dropWhile_suffix _
          have hrlen : r.length ≤ n := by
            have h3 := hsuf.length_le
            simp only [List.length_cons] at h3 hs
            omega
          have hrt : t <:+: r := ih r hrlen t ht2
          exact hrt.trans ((List.suffix_cons x r).trans hsuf).isInfix

theorem strFind_eq_some (s pat : List Char) (i : Nat) (h : strFind s pat = some i) :
    pat <+: s.drop i ∧ ∀ j, j < i → ¬ pat <+: s.drop j := by
  induction s generalizing i with
  | nil =>
    unfold strFind at h
    by_cases hp : pat.isPrefixOf []
    · rw [if_pos hp] at h
      cases h
      exact ⟨List.isPrefixOf_iff_prefix.mp hp, fun j hj => by omega⟩
    · rw [if_neg hp] at h
      exact Option.noConfusion h
  | cons c t ih =>
    unfold strFind at h
    by_cases hp : pat.isPrefixOf (c :: t)
    · rw [if_pos hp] at h
      cases h
      exact ⟨List.isPrefixOf_iff_prefix.mp hp, fun j hj => by omega⟩
    · rw [if_neg hp] at h
      obtain ⟨m, hm, rfl⟩ := Option.map_eq_some'.mp h
      obtain ⟨h1, h2⟩ := ih m hm
      refine ⟨by rwa [List.drop_succ_cons], ?_⟩
      intro j hj
      cases j with
      | zero =>
        simp only [List.drop_zero]
        intro hpre
        exact hp (List.isPrefixOf_iff_prefix.mpr hpre)
      | succ j2 =>
        rw [List.drop_succ_cons]
        exact h2 j2 (by omega)

theorem strFind_ne_none (s pat : List Char) (j : Nat) (h : pat <+: s.drop j) : strFind s pat ≠ none := by
  induction s generalizing j with
  | nil =>
    rw [List.drop_nil] at h
    have : pat = [] := List.prefix_nil.mp h
    subst this
    unfold strFind
    rw [if_pos (by simp [List.isPrefixOf])]
    exact Option.noConfusion
  | cons c t ih =>
    unfold strFind
    by_cases hp : pat.isPrefixOf (c :: t)
    · rw [if_pos hp]
      exact Option.noConfusion
    · rw [if_neg hp]
      cases j with
      | zero =>
        rw [List.drop_zero] at h
        exact absurd (List.isPrefixOf_iff_prefix.mpr h) hp
      | succ j2 =>
        rw [List.drop_succ_cons] at h
        intro hcon
        exact ih j2 h (Option.map_eq_none'.mp hcon)

theorem exists_prefix_drop_of_infix {pat s : List Char} (h : pat <:+: s) : ∃ j, pat <+: s.drop j := by
  obtain ⟨u, v, rfl⟩ := h
  refine ⟨u.length, ?_⟩
  rw [List.append_assoc, List.drop_left]
  exact List.prefix_append pat v

theorem GetCacheSuffix_eq_of_find (fused prec : List Char) (h3 : 3 ≤ (split '_' fused).length) (index : Nat)
    (hf : strFind fused ((split '_' fused).getD ((split '_' fused).length - 3) []) = some index) :
    GetCacheSuffix fused prec =
      if index ≤ prec.length then
        some (join
          (if 2 < (split '_' (prec.drop index)).length then
             (split '_' (prec.drop index)).eraseIdx 2
           else split '_' (prec.drop index)) ['_'])
      else none := by
  simp only [GetCacheSuffix]
  rw [if_pos h3, hf]

/-- C6 (amended): `GetCacheSuffix` returns the empty string when
`fused_node_name` has fewer than 3 underscore-delimited tokens; otherwise it
takes the third-from-last underscore token of `fused_node_name`, locates the
first occurrence of that token inside `fused_node_name` itself (not inside
`trt_node_name_with_precision`, as the claim states), splits
`trt_node_name_with_precision` from that index onward by underscore, removes
the token at index 2 when the split yields more than 2 tokens, and returns
the remaining tokens rejoined; when the index exceeds the length of
`trt_node_name_with_precision`, `substr` throws `std::out_of_range`. -/
theorem GetCacheSuffix_spec (fused prec : List Char) :
    ((split '_' fused).length < 3 → GetCacheSuffix fused prec = some []) ∧
    (3 ≤ (split '_' fused).length →
      ∃ index,
        ((split '_' fused).getD ((split '_' fused).length - 3) []) <+: fused.drop index ∧
        (∀ j, j < index → ¬ ((split '_' fused).getD ((split '_' fused).length - 3) []) <+: fused.drop j) ∧
        GetCacheSuffix fused prec =
          (if index ≤ prec.length then
            some (join
              (if 2 < (split '_' (prec.drop index)).length then
                 (split '_' (prec.drop index)).eraseIdx 2
               else split '_' (prec.drop index)) ['_'])
           else none)) := by
  constructor
  · intro hlt
    simp only [GetCacheSuffix]
    rw [if_neg (by omega)]
  · intro hge
    have hmem : (split '_' fused).getD ((split '_' fused).length - 3) [] ∈ split '_' fused := by
      rw [List.getD_eq_getElem _ _ (by omega)]
      exact List.getElem_mem _
    have hinfix : (split '_' fused).getD ((split '_' fused).length - 3) [] <:+: fused :=
      split_token_infix '_' fused.length fused (Nat.le_refl _) _ hmem
    obtain ⟨j0, hj0⟩ := exists_prefix_drop_of_infix hinfix
    have hns := strFind_ne_none fused _ j0 hj0
    obtain ⟨index, hidx⟩ : ∃ m, strFind fused ((split '_' fused).getD ((split '_' fused).length - 3) []) = some m := by
      cases hfi : strFind fused ((split '_' fused).getD ((split '_' fused).length - 3) []) with
      | none => exact absurd hfi hns
      | some m => exact ⟨m, rfl⟩
    obtain ⟨hpre, hmin⟩ := strFind_eq_some _ _ _ hidx
    exact ⟨index, hpre, hmin, GetCacheSuffix_eq_of_find fused prec hge index hidx⟩

/-- C6 counterexample: for `fused = "ab_12_x_y"` and `prec = "12_p_q_r"` the
third-from-last token is `"12"`; the code locates it inside `fused` (index 3)
and returns `"p_q"`, while the claim locates it inside `prec` (index 0) and
would return `"12_p_r"`. -/
theorem GetCacheSuffix_counterexample :
    GetCacheSuffix ("ab_12_x_y".data) ("12_p_q_r".data) = some ("p_q".data) ∧
    GetCacheSuffixClaimed ("ab_12_x_y".data) ("12_p_q_r".data) = some ("12_p_r".data) ∧
    GetCacheSuffix ("ab_12_x_y".data) ("12_p_q_r".data) ≠
      GetCacheSuffixClaimed ("ab_12_x_y".data) ("12_p_q_r".data) := by
  refine ⟨by decide, by decide, by decide⟩

theorem GetCacheSuffix_spec_witness :
    ((split '_' ("ab".data)).length < 3 ∧ GetCacheSuffix ("ab".data) ("z".data) = some []) ∧
    (3 ≤ (split '_' ("a_12_b_c".data)).length ∧
      ∃ index,
        ((split '_' ("a_12_b_c".data)).getD ((split '_' ("a_12_b_c".data)).length - 3) []) <+: ("a_12_b_c".data).drop index ∧
        (∀ j, j < index → ¬ ((split '_' ("a_12_b_c".data)).getD ((split '_' ("a_12_b_c".data)).length - 3) []) <+: ("a_12_b_c".data).drop j) ∧
        GetCacheSuffix ("a_12_b_c".data) ("a_12_b_fp16".data) =
          (if index ≤ ("a_12_b_fp16".data).length then
            some (join
              (if 2 < (split '_' (("a_12_b_fp16".data).drop index)).length then
                 (split '_' (("a_12_b_fp16".data).drop index)).eraseIdx 2
               else split '_' (("a_12_b_fp16".data).drop index)) ['_'])
           else none)) :=
  ⟨⟨by decide, (GetCacheSuffix_spec ("ab".data) ("z".data)).1 (by decide)⟩,
   ⟨by decide, (GetCacheSuffix_spec ("a_12_b_c".data) ("a_12_b_fp16".data)).2 (by decide)⟩⟩

theorem lookupList_appendAt_self {κ α : Type} [DecidableEq κ] (m : List (κ × List α)) (k : κ) (v : α) :
    lookupList (appendAt m k v) k = some (lookupD m k [] ++ [v]) := by
  induction m with
  | nil => simp [appendAt, lookupList, lookupD]
  | cons hd tl ih =>
    obtain ⟨k2, vs⟩ := hd
    by_cases hk : k = k2
    · subst hk
      simp [appendAt, lookupList, lookupD]
    · show lookupList (if k = k2 then (k2, vs ++ [v]) :: tl else (k2, vs) :: appendAt tl k v) k = _
      rw [if_neg hk]
      show (if k = k2 then some vs else lookupList (appendAt tl k v) k) = _
      rw [if_neg hk]
      have h2 : lookupD ((k2, vs) :: tl) k [] = lookupD tl k [] := by
        simp only [lookupD, lookupList]
        rw [if_neg hk]
      rw [h2]
      exact ih

theorem lookupList_appendAt_ne {κ α : Type} [DecidableEq κ] (m : List (κ × List α)) (k k2 : κ) (v : α) (h : k2 ≠ k) :
    lookupList (appendAt m k v) k2 = lookupList m k2 := by
  induction m with
  | nil => simp [appendAt, lookupList, h]
  | cons hd tl ih =>
    obtain ⟨k3, vs⟩ := hd
    by_cases hk : k = k3
    · subst hk
      simp [appendAt, lookupList, h]
    · show lookupList (if k = k3 then (k3, vs ++ [v]) :: tl else (k3, vs) :: appendAt tl k v) k2 = _
      rw [if_neg hk]
      show (if k2 = k3 then some vs else lookupList (appendAt tl k v) k2) =
        (if k2 = k3 then some vs else lookupList tl k2)
      by_cases hk2 : k2 = k3
      · rw [if_pos hk2, if_pos hk2]
      · rw [if_neg hk2, if_neg hk2]
        exact ih

theorem mapM_stoi_ok (l : List (List Char)) (h : ∀ tok ∈ l, exceptIsOk (stoiCpp tok) = true) :
    l.mapM stoiCpp = Except.ok (l.filterMap (fun tok =>
      match stoiCpp tok with
      | Except.ok v => some v
      | Except.error _ => none)) := by
  induction l with
  | nil => rfl
  | cons a t ih =>
    have ha := h a (List.mem_cons_self _ _)
    obtain ⟨v, hv⟩ : ∃ v, stoiCpp a = Except.ok v := by
      cases hs : stoiCpp a with
      | ok v => exact ⟨v, rfl⟩
      | error u =>
        rw [hs] at ha
        simp [exceptIsOk] at ha
    rw [List.mapM_cons, hv, ih (fun tok htok => h tok (List.mem_cons_of_mem _ htok))]
    simp only [List.filterMap_cons, hv]
    rfl

theorem mapM_stoi_error (l : List (List Char)) (h : ∃ tok ∈ l, exceptIsOk (stoiCpp tok) = false) :
    ∃ u, l.mapM stoiCpp = Except.error u := by
  induction l with
  | nil => simp at h
  | cons a t ih =>
    cases ha : stoiCpp a with
    | error u =>
      refine ⟨u, ?_⟩
      rw [List.mapM_cons, ha]
      rfl
    | ok v =>
      obtain ⟨tok, htok, hbad⟩ := h
      rcases List.mem_cons.mp htok with rfl | htok2
      · rw [ha] at hbad
        simp [exceptIsOk] at hbad
      · obtain ⟨u, hu⟩ := ih ⟨tok, htok2, hbad⟩
        refine ⟨u, ?_⟩
        rw [List.mapM_cons, ha, hu]
        rfl

theorem MakeInputNameShapePair_wf (e : List Char) (h : entryWF e) :
    MakeInputNameShapePair e = Except.ok (some (entryNameOf e, entryShapeVals e)) := by
  obtain ⟨hne, hname, htoks, hok⟩ := h
  have hvals : entryShapeVals e ≠ [] := by
    cases hts : entryShapeTokens e with
    | nil => exact absurd hts htoks
    | cons a t =>
      have ha := hok a (by rw [hts]; exact List.mem_cons_self _ _)
      obtain ⟨v, hv⟩ : ∃ v, stoiCpp a = Except.ok v := by
        cases hs : stoiCpp a with
        | ok v => exact ⟨v, rfl⟩
        | error u =>
          rw [hs] at ha
          simp [exceptIsOk] at ha
      simp [entryShapeVals, hts, List.filterMap_cons, hv]
  simp only [MakeInputNameShapePair, if_neg hne]
  rw [show split 'x'
        (match e.dropWhile (fun c => c != ':') with
         | [] => []
         | _ :: r => r.takeWhile (fun c => c != ':')) = entryShapeTokens e from rfl]
  rw [mapM_stoi_ok _ hok]
  show (if entryNameOf e = [] ∨ entryShapeVals e = [] then Except.ok none
        else Except.ok (some (entryNameOf e, entryShapeVals e))) =
      Except.ok (some (entryNameOf e, entryShapeVals e))
  rw [if_neg (by
    intro hcon
    rcases hcon with hc1 | hc2
    · exact hname hc1
    · exact hvals hc2)]

theorem MakeInputNameShapePair_bad (e : List Char) (h : entryBad e) :
    ∀ p, MakeInputNameShapePair e ≠ Except.ok (some p) := by
  obtain ⟨hne, hbad⟩ := h
  intro p
  simp only [MakeInputNameShapePair, if_neg hne]
  rw [show split 'x'
        (match e.dropWhile (fun c => c != ':') with
         | [] => []
         | _ :: r => r.takeWhile (fun c => c != ':')) = entryShapeTokens e from rfl]
  by_cases hall : ∀ tok ∈ entryShapeTokens e, exceptIsOk (stoiCpp tok) = true
  · rw [mapM_stoi_ok _ hall]
    show (if entryNameOf e = [] ∨ entryShapeVals e = [] then Except.ok none
          else Except.ok (some (entryNameOf e, entryShapeVals e))) ≠ Except.ok (some p)
    have hguard : entryNameOf e = [] ∨ entryShapeVals e = [] := by
      rcases hbad with h1 | h2 | ⟨tok, htok, hfail⟩
      · exact Or.inl h1
      · exact Or.inr (by simp [entryShapeVals, h2])
      · exact absurd (hall tok htok) (by rw [hfail]; intro hcon; exact Bool.noConfusion hcon)
    rw [if_pos hguard]
    intro hcon
    exact Option.noConfusion (Except.ok.inj hcon)
  · push_neg at hall
    obtain ⟨tok, htok, hfail⟩ := hall
    obtain ⟨u, hu⟩ := mapM_stoi_error (entryShapeTokens e) ⟨tok, htok, by
      cases hx : exceptIsOk (stoiCpp tok) with
      | false => rfl
      | true => exact absurd hx hfail⟩
    rw [hu]
    intro hcon
    exact Except.noConfusion hcon

theorem ParseProfileShapesGo_ok : ∀ (entries : List (List Char)) (acc : List (List Char × List (List Int))),
    (∀ e ∈ entries, entryWF e) →
    ∃ m, ParseProfileShapesGo acc entries = Except.ok (some m) ∧
      ∀ nm, lookupList m nm =
        (if lookupList acc nm = none ∧ (entries.filter (fun e => entryNameOf e == nm)) = []
         then none
         else some (lookupD acc nm [] ++ ((entries.filter (fun e => entryNameOf e == nm)).map entryShapeVals))) := by
  intro entries
  induction entries with
  | nil =>
    intro acc h
    refine ⟨acc, rfl, ?_⟩
    intro nm
    simp only [List.filter_nil, List.map_nil, List.append_nil]
    cases hl : lookupList acc nm with
    | none => simp [hl]
    | some v => simp [hl, lookupD]
  | cons e rest ih =>
    intro acc h
    have hwf := h e (List.mem_cons_self _ _)
    obtain ⟨m, hm, hlook⟩ := ih (appendAt acc (entryNameOf e) (entryShapeVals e))
      (fun e2 he2 => h e2 (List.mem_cons_of_mem _ he2))
    refine ⟨m, ?_, ?_⟩
    · simp only [ParseProfileShapesGo]
      rw [MakeInputNameShapePair_wf e hwf]
      exact hm
    · intro nm
      rw [hlook nm]
      by_cases hnm : entryNameOf e = nm
      · subst hnm
        rw [lookupList_appendAt_self]
        have hD : lookupD (appendAt acc (entryNameOf e) (entryShapeVals e)) (entryNameOf e) [] =
            lookupD acc (entryNameOf e) [] ++ [entryShapeVals e] := by
          simp only [lookupD]
          rw [lookupList_appendAt_self]
          rfl
        rw [hD]
        have hfil : (e :: rest).filter (fun e2 => entryNameOf e2 == entryNameOf e) =
            e :: rest.filter (fun e2 => entryNameOf e2 == entryNameOf e) := by
          simp [List.filter_cons]
        rw [hfil]
        rw [if_neg (by simp), if_neg (by simp)]
        simp [List.append_assoc]
      · rw [lookupList_appendAt_ne _ _ _ _ (fun hc => hnm hc.symm)]
        have hfil : (e :: rest).filter (fun e2 => entryNameOf e2 == nm) =
            rest.filter (fun e2 => entryNameOf e2 == nm) := by
          simp [List.filter_cons, hnm]
        rw [hfil]
        have hD : lookupD (appendAt acc (entryNameOf e) (entryShapeVals e)) nm [] =
            lookupD acc nm [] := by
          simp only [lookupD]
          rw [lookupList_appendAt_ne _ _ _ _ (fun hc => hnm hc.symm)]
        rw [hD]

theorem ParseProfileShapesGo_bad : ∀ (entries : List (List Char)) (acc : List (List Char × List (List Int))),
    (∃ e ∈ entries, entryBad e) → ∀ m, ParseProfileShapesGo acc entries ≠ Except.ok (some m) := by
  intro entries
  induction entries with
  | nil =>
    intro acc h
    simp at h
  | cons e rest ih =>
    intro acc h m
    simp only [ParseProfileShapesGo]
    cases hmk : MakeInputNameShapePair e with
    | error u =>
      intro hcon
      exact Except.noConfusion hcon
    | ok o =>
      cases o with
      | none =>
        intro hcon
        exact Option.noConfusion (Except.ok.inj hcon)
      | some p =>
        obtain ⟨e2, he2, hbad⟩ := h
        rcases List.mem_cons.mp he2 with rfl | he3
        · exact absurd hmk (MakeInputNameShapePair_bad e2 hbad p)
        · exact ih _ ⟨e2, he3, hbad⟩ m

theorem MakeInputNameShapePair_false (e : List Char) (hne : e ≠ [])
    (hok : ∀ tok ∈ entryShapeTokens e, exceptIsOk (stoiCpp tok) = true)
    (hbad : entryNameOf e = [] ∨ entryShapeTokens e = []) :
    MakeInputNameShapePair e = Except.ok none := by
  simp only [MakeInputNameShapePair, if_neg hne]
  rw [show split 'x'
        (match e.dropWhile (fun c => c != ':') with
         | [] => []
         | _ :: r => r.takeWhile (fun c => c != ':')) = entryShapeTokens e from rfl]
  rw [mapM_stoi_ok _ hok]
  show (if entryNameOf e = [] ∨ entryShapeVals e = [] then Except.ok none
        else Except.ok (some (entryNameOf e, entryShapeVals e))) = Except.ok none
  rcases hbad with h1 | h2
  · rw [if_pos (Or.inl h1)]
  · rw [if_pos (Or.inr (by simp [entryShapeVals, h2]))]

theorem ParseProfileShapesGo_false : ∀ (pre : List (List Char)) (e : List Char) (post : List (List Char)) (acc : List (List Char × List (List Int))),
    (∀ e2 ∈ pre, e2 = [] ∨ entryWF e2) →
    e ≠ [] → (∀ tok ∈ entryShapeTokens e, exceptIsOk (stoiCpp tok) = true) →
    (entryNameOf e = [] ∨ entryShapeTokens e = []) →
    ParseProfileShapesGo acc (pre ++ e :: post) = Except.ok none := by
  intro pre
  induction pre with
  | nil =>
    intro e post acc _ hne hok hbad
    show (match MakeInputNameShapePair e with
          | Except.error u => Except.error u
          | Except.ok none => Except.ok none
          | Except.ok (some p) => ParseProfileShapesGo (appendAt acc p.1 p.2) post) = Except.ok none
    rw [MakeInputNameShapePair_false e hne hok hbad]
  | cons e2 rest ih =>
    intro e post acc hpre hne hok hbad
    show (match MakeInputNameShapePair e2 with
          | Except.error u => Except.error u
          | Except.ok none => Except.ok none
          | Except.ok (some p) => ParseProfileShapesGo (appendAt acc p.1 p.2) (rest ++ e :: post)) = Except.ok none
    rcases hpre e2 (List.mem_cons_self _ _) with h1 | h1
    · subst h1
      rw [show MakeInputNameShapePair [] = Except.ok (some ([], [])) from rfl]
      exact ih e post _ (fun e3 he3 => hpre e3 (List.mem_cons_of_mem _ he3)) hne hok hbad
    · rw [MakeInputNameShapePair_wf e2 h1]
      exact ih e post _ (fun e3 he3 => hpre e3 (List.mem_cons_of_mem _ he3)) hne hok hbad

/-- C8 (amended): when some non-empty comma-separated entry is malformed the
parse never succeeds, but the failure mode depends on the defect: an entry
with an empty tensor name or an empty shape part makes the parse return the
boolean failure `false` (provided it is reached, i.e. every earlier entry is
empty or well-formed), while a shape token rejected by `std::stoi` raises an
exception rather than returning false.  An entirely empty entry (from a
leading, trailing or doubled comma) is accepted and contributes an
empty-named tensor with an empty shape vector.  A string whose entries are
all well-formed parses successfully, and repeating a tensor name appends an
additional profile: the resulting map sends each name to the shape vectors
of its entries in file order. -/
theorem ParseProfileShapes_spec (s : List Char) :
    ((∀ e ∈ split ',' s, entryWF e) →
      ∃ m, ParseProfileShapes s = Except.ok (some m) ∧
        ∀ nm, lookupList m nm =
          (if (split ',' s).filter (fun e => entryNameOf e == nm) = [] then none
           else some (((split ',' s).filter (fun e => entryNameOf e == nm)).map entryShapeVals))) ∧
    ((∃ e ∈ split ',' s, entryBad e) → ∀ m, ParseProfileShapes s ≠ Except.ok (some m)) ∧
    (∀ (pre : List (List Char)) (e : List Char) (post : List (List Char)),
      split ',' s = pre ++ e :: post →
      (∀ e2 ∈ pre, e2 = [] ∨ entryWF e2) →
      e ≠ [] →
      (∀ tok ∈ entryShapeTokens e, exceptIsOk (stoiCpp tok) = true) →
      (entryNameOf e = [] ∨ entryShapeTokens e = []) →
      ParseProfileShapes s = Except.ok none) := by
  refine ⟨?_, ?_, ?_⟩
  · intro hwf
    obtain ⟨m, hm, hlook⟩ := ParseProfileShapesGo_ok (split ',' s) [] hwf
    refine ⟨m, hm, ?_⟩
    intro nm
    rw [hlook nm]
    by_cases hfil : (split ',' s).filter (fun e => entryNameOf e == nm) = []
    · rw [if_pos ⟨rfl, hfil⟩, if_pos hfil]
    · rw [if_neg (fun hc => hfil hc.2), if_neg hfil]
      simp [lookupD, lookupList]
  · exact fun h m => ParseProfileShapesGo_bad (split ',' s) [] h m
  · intro pre e post hsplit hpre hne hok hbad
    unfold ParseProfileShapes
    rw [hsplit]
    exact ParseProfileShapesGo_false pre e post [] hpre hne hok hbad

/-- C8 counterexample: the entry `""` produced by the leading comma in
`",x:1"` has an empty tensor name and an empty shape, yet the whole parse
succeeds (the claim requires failure), silently adding an empty-named tensor
with an empty shape vector; and for `"x:b"`, whose shape part is
unparseable, the parse raises an exception (`std::stoi` throws
`std::invalid_argument`) instead of returning the boolean failure the claim
requires. -/
theorem ParseProfileShapes_counterexample :
    ParseProfileShapes (",x:1".data) =
      Except.ok (some [(([] : List Char), [([] : List Int)]), ("x".data, [[1]])]) ∧
    ParseProfileShapes ("x:b".data) = Except.error () := by
  constructor
  · rfl
  · rfl

theorem ParseProfileShapes_spec_witness :
    ((∀ e ∈ split ',' ("input_id:32x1,input_id:32x41".data), entryWF e) ∧
      ∃ m, ParseProfileShapes ("input_id:32x1,input_id:32x41".data) = Except.ok (some m) ∧
        ∀ nm, lookupList m nm =
          (if (split ',' ("input_id:32x1,input_id:32x41".data)).filter (fun e => entryNameOf e == nm) = [] then none
           else some (((split ',' ("input_id:32x1,input_id:32x41".data)).filter (fun e => entryNameOf e == nm)).map entryShapeVals))) ∧
    ((∃ e ∈ split ',' ("a:,b:1".data), entryBad e) ∧
      ∀ m, ParseProfileShapes ("a:,b:1".data) ≠ Except.ok (some m)) ∧
    (split ',' ("x:2,:1".data) = ["x:2".data] ++ (":1".data) :: [] ∧
      (∀ e2 ∈ ["x:2".data], e2 = [] ∨ entryWF e2) ∧
      (":1".data) ≠ [] ∧
      (∀ tok ∈ entryShapeTokens (":1".data), exceptIsOk (stoiCpp tok) = true) ∧
      (entryNameOf (":1".data) = [] ∨ entryShapeTokens (":1".data) = []) ∧
      ParseProfileShapes ("x:2,:1".data) = Except.ok none) :=
  ⟨⟨by decide, (ParseProfileShapes_spec ("input_id:32x1,input_id:32x41".data)).1 (by decide)⟩,
   ⟨by decide, (ParseProfileShapes_spec ("a:,b:1".data)).2.1 (by decide)⟩,
   ⟨by decide, by decide, by decide, by decide, by decide,
    (ParseProfileShapes_spec ("x:2,:1".data)).2.2 ["x:2".data] (":1".data) []
      (by decide) (by decide) (by decide) (by decide) (by decide)⟩⟩

theorem toNat64_toInt64 (d : Nat) (h : d < 2 ^ 64) : toNat64 (toInt64 d) = d := by
  simp only [toNat64, toInt64]
  split <;> omega

theorem setAssoc_not_mem {κ α : Type} [DecidableEq κ] : ∀ (m : List (κ × α)) (k : κ) (v : α), (∀ q ∈ m, q.1 ≠ k) → setAssoc m k v = m ++ [(k, v)] := by
  intro m k v h
  induction m with
  | nil => rfl
  | cons hd tl ih =>
    obtain ⟨k2, w⟩ := hd
    show (if k = k2 then (k2, v) :: tl else (k2, w) :: setAssoc tl k v) = _
    rw [if_neg (fun hc => (h (k2, w) (List.mem_cons_self _ _)) hc.symm)]
    rw [ih (fun q hq => h q (List.mem_cons_of_mem _ hq))]
    rfl

theorem appendAt_not_mem {κ α : Type} [DecidableEq κ] : ∀ (m : List (κ × List α)) (k : κ) (v : α), (∀ q ∈ m, q.1 ≠ k) → appendAt m k v = m ++ [(k, [v])] := by
  intro m k v h
  induction m with
  | nil => rfl
  | cons hd tl ih =>
    obtain ⟨k2, w⟩ := hd
    show (if k = k2 then (k2, w ++ [v]) :: tl else (k2, w) :: appendAt tl k v) = _
    rw [if_neg (fun hc => (h (k2, w) (List.mem_cons_self _ _)) hc.symm)]
    rw [ih (fun q hq => h q (List.mem_cons_of_mem _ hq))]
    rfl

theorem appendAt_append {κ α : Type} [DecidableEq κ] : ∀ (m : List (κ × List α)) (k : κ) (vs : List α) (v : α), (∀ q ∈ m, q.1 ≠ k) → appendAt (m ++ [(k, vs)]) k v = m ++ [(k, vs ++ [v])] := by
  intro m k vs v h
  induction m with
  | nil =>
    show (if k = k then (k, vs ++ [v]) :: [] else _) = _
    rw [if_pos rfl]
    rfl
  | cons hd tl ih =>
    obtain ⟨k2, w⟩ := hd
    show (if k = k2 then (k2, w ++ [v]) :: (tl ++ [(k, vs)]) else (k2, w) :: appendAt (tl ++ [(k, vs)]) k v) = _
    rw [if_neg (fun hc => (h (k2, w) (List.mem_cons_self _ _)) hc.symm)]
    rw [ih (fun q hq => h q (List.mem_cons_of_mem _ hq))]
    rfl

theorem decodeFlatAux_run (d : Nat) (hd : d < 2 ^ 64) : ∀ (profs : List (List Int)), (∀ sv ∈ profs, sv.length = 3) →
    ∃ l, encProfiles d profs = some l ∧
      ∀ (m : List (Nat × List (List Int))) (vs : List (List Int)), (∀ q ∈ m, q.1 ≠ d) →
        ∀ l2, decodeFlatAux (m ++ [(d, vs)]) (l ++ l2) = decodeFlatAux (m ++ [(d, vs ++ profs)]) l2 := by
  intro profs
  induction profs with
  | nil =>
    intro h3
    refine ⟨[], rfl, ?_⟩
    intro m vs hm l2
    rw [List.append_nil]
    rfl
  | cons sv rest ih =>
    intro h3
    obtain ⟨a, b, c, hsv⟩ : ∃ a b c, sv = [a, b, c] := by
      have hlen := h3 sv (List.mem_cons_self _ _)
      match sv, hlen with
      | [a, b, c], _ => exact ⟨a, b, c, rfl⟩
    obtain ⟨lr, hlr, hrun⟩ := ih (fun sv2 hsv2 => h3 sv2 (List.mem_cons_of_mem _ hsv2))
    refine ⟨toInt64 d :: a :: b :: c :: lr, ?_, ?_⟩
    · subst hsv
      show (encProfiles d rest).map (fun l => toInt64 d :: a :: b :: c :: l) = _
      rw [hlr]
      rfl
    · intro m vs hm l2
      show decodeFlatAux (appendAt (m ++ [(d, vs)]) (toNat64 (toInt64 d)) [a, b, c]) (lr ++ l2) = _
      rw [toNat64_toInt64 d hd, appendAt_append m d vs [a, b, c] hm]
      rw [hrun m (vs ++ [[a, b, c]]) hm l2]
      rw [List.append_assoc vs [[a, b, c]] rest]
      rw [hsv]
      rfl

theorem decodeFlatAux_dim (d : Nat) (hd : d < 2 ^ 64) (profs : List (List Int)) (hne : profs ≠ []) (h3 : ∀ sv ∈ profs, sv.length = 3) :
    ∃ l, encProfiles d profs = some l ∧
      ∀ (m : List (Nat × List (List Int))), (∀ q ∈ m, q.1 ≠ d) →
        ∀ l2, decodeFlatAux m (l ++ l2) = decodeFlatAux (m ++ [(d, profs)]) l2 := by
  cases profs with
  | nil => exact absurd rfl hne
  | cons sv rest =>
    obtain ⟨a, b, c, hsv⟩ : ∃ a b c, sv = [a, b, c] := by
      have hlen := h3 sv (List.mem_cons_self _ _)
      match sv, hlen with
      | [a, b, c], _ => exact ⟨a, b, c, rfl⟩
    obtain ⟨lr, hlr, hrun⟩ := decodeFlatAux_run d hd rest (fun sv2 hsv2 => h3 sv2 (List.mem_cons_of_mem _ hsv2))
    refine ⟨toInt64 d :: a :: b :: c :: lr, ?_, ?_⟩
    · subst hsv
      show (encProfiles d rest).map (fun l => toInt64 d :: a :: b :: c :: l) = _
      rw [hlr]
      rfl
    · intro m hm l2
      show decodeFlatAux (appendAt m (toNat64 (toInt64 d)) [a, b, c]) (lr ++ l2) = _
      rw [toNat64_toInt64 d hd, appendAt_not_mem m d [a, b, c] hm]
      rw [hrun m [[a, b, c]] hm l2]
      rw [hsv]
      rfl

theorem decodeFlatAux_encDims : ∀ (dims : List (Nat × List (List Int))),
    (∀ dp ∈ dims, dp.1 < 2 ^ 64 ∧ dp.2 ≠ [] ∧ ∀ sv ∈ dp.2, sv.length = 3) →
    (dims.map Prod.fst).Nodup →
    ∃ l, encDims dims = some l ∧
      ∀ (m : List (Nat × List (List Int))), (∀ q ∈ m, ∀ dp ∈ dims, q.1 ≠ dp.1) →
        ∀ l2, decodeFlatAux m (l ++ l2) = decodeFlatAux (m ++ dims) l2 := by
  intro dims
  induction dims with
  | nil =>
    intro h hnd
    refine ⟨[], rfl, ?_⟩
    intro m hm l2
    rw [List.append_nil]
    rfl
  | cons dp rest ih =>
    intro h hnd
    obtain ⟨d, profs⟩ := dp
    obtain ⟨hd, hne, h3⟩ := h (d, profs) (List.mem_cons_self _ _)
    obtain ⟨l1, hl1, hstep⟩ := decodeFlatAux_dim d hd profs hne h3
    obtain ⟨lr, hlr, hrest⟩ := ih (fun dp2 hdp2 => h dp2 (List.mem_cons_of_mem _ hdp2))
      (by simp only [List.map_cons, List.nodup_cons] at hnd; exact hnd.2)
    refine ⟨l1 ++ lr, ?_, ?_⟩
    · show (match encProfiles d profs with
            | none => none
            | some l =>
              match encDims rest with
              | none => none
              | some r => some (l ++ r)) = _
      rw [hl1, hlr]
    · intro m hm l2
      rw [List.append_assoc l1 lr l2]
      rw [hstep m (fun q hq => hm q hq (d, profs) (List.mem_cons_self _ _)) (lr ++ l2)]
      have hfresh : ∀ q ∈ m ++ [(d, profs)], ∀ dp2 ∈ rest, q.1 ≠ dp2.1 := by
        intro q hq dp2 hdp2
        rcases List.mem_append.mp hq with hq1 | hq2
        · exact hm q hq1 dp2 (List.mem_cons_of_mem _ hdp2)
        · simp at hq2
          subst hq2
          simp only [List.map_cons, List.nodup_cons] at hnd
          intro hc
          have hc2 : d = dp2.1 := hc
          exact hnd.1 (by rw [hc2]; exact List.mem_map_of_mem _ hdp2)
      rw [hrest (m ++ [(d, profs)]) hfresh l2]
      rw [List.append_assoc]
      rfl

theorem decodeFlatAux_encDims_closed (dims : List (Nat × List (List Int)))
    (h : ∀ dp ∈ dims, dp.1 < 2 ^ 64 ∧ dp.2 ≠ [] ∧ ∀ sv ∈ dp.2, sv.length = 3)
    (hnd : (dims.map Prod.fst).Nodup) :
    ∃ l, encDims dims = some l ∧ decodeFlatAux [] l = dims := by
  obtain ⟨l, hl, hrun⟩ := decodeFlatAux_encDims dims h hnd
  refine ⟨l, hl, ?_⟩
  have := hrun [] (by simp) []
  rw [List.append_nil] at this
  rw [this]
  rfl

theorem foldl_setAssoc_fresh : ∀ (entries : List (String × List Int)) (acc : ShapeRanges),
    (entries.map Prod.fst).Nodup → (∀ q ∈ acc, ∀ e ∈ entries, q.1 ≠ e.1) →
    entries.foldl (fun acc2 e => setAssoc acc2 e.1 (decodeFlatAux [] e.2)) acc =
      acc ++ entries.map (fun e => (e.1, decodeFlatAux [] e.2)) := by
  intro entries
  induction entries with
  | nil =>
    intro acc hnd hf
    simp
  | cons e rest ih =>
    intro acc hnd hf
    simp only [List.foldl_cons, List.map_cons]
    simp only [List.map_cons, List.nodup_cons] at hnd
    rw [setAssoc_not_mem acc e.1 (decodeFlatAux [] e.2)
      (fun q hq => hf q hq e (List.mem_cons_self _ _))]
    rw [ih (acc ++ [(e.1, decodeFlatAux [] e.2)]) hnd.2 ?hfresh]
    · rw [List.append_assoc]
      rfl
    case hfresh =>
      intro q hq e2 he2
      rcases List.mem_append.mp hq with hq1 | hq2
      · exact hf q hq1 e2 (List.mem_cons_of_mem _ he2)
      · simp at hq2
        subst hq2
        intro hc
        have hc2 : e.1 = e2.1 := hc
        exact hnd.1 (by rw [hc2]; exact List.mem_map_of_mem _ he2)

/-- C2: for every well-formed `ShapeProfileSet` (distinct tensor and
dimension keys, a shared profile count of at least 1, `size_t` dimension
keys and genuine `(min, max, opt)` triples), serialization succeeds and
decoding the current-format encoding yields the set back, as map equality
(here even preserving entry order, so every lookup agrees). -/
theorem SerializeProfileV2_roundTrip (x : ShapeRanges) (p : Nat) (h : wellFormedSPS x p) :
    ∃ enc, SerializeProfileV2 x = some enc ∧
      ∀ t, lookupList (DeserializeProfileV2 (FlexRoot.map enc)) t = lookupList x t := by
  obtain ⟨hp, hnd, hall⟩ := h
  suffices hs : ∃ enc, SerializeProfileV2 x = some enc ∧ (enc.map Prod.fst = x.map Prod.fst) ∧
      enc.map (fun e => (e.1, decodeFlatAux [] e.2)) = x by
    obtain ⟨enc, henc, hfst, hdec⟩ := hs
    refine ⟨enc, henc, ?_⟩
    intro t
    have hdecode : DeserializeProfileV2 (FlexRoot.map enc) = x := by
      show enc.foldl (fun acc2 e => setAssoc acc2 e.1 (decodeFlatAux [] e.2)) [] = x
      rw [foldl_setAssoc_fresh enc [] (by rw [hfst]; exact hnd) (by simp)]
      rw [List.nil_append]
      exact hdec
    rw [hdecode]
  clear hnd
  induction x with
  | nil => exact ⟨[], rfl, rfl, rfl⟩
  | cons td rest ih =>
    obtain ⟨t, dims⟩ := td
    obtain ⟨hdnd, hdims⟩ := hall (t, dims) (List.mem_cons_self _ _)
    obtain ⟨l, hl, hldec⟩ := decodeFlatAux_encDims_closed dims
      (fun dp hdp => by
        obtain ⟨h1, h2, h3⟩ := hdims dp hdp
        exact ⟨h1, by rw [← List.length_pos] at *; omega, h3⟩)
      hdnd
    obtain ⟨encr, hencr, hencrfst, hencrdec⟩ := ih (fun td2 htd2 => hall td2 (List.mem_cons_of_mem _ htd2))
    refine ⟨(t, l) :: encr, ?_, ?_, ?_⟩
    · show (match encDims dims with
            | none => none
            | some l2 =>
              match SerializeProfileV2 rest with
              | none => none
              | some r => some ((t, l2) :: r)) = _
      rw [hl, hencr]
    · simp only [List.map_cons, hencrfst]
    · simp only [List.map_cons, hldec, hencrdec]

theorem SerializeProfileV2_roundTrip_witness :
    wellFormedSPS [("x", [(0, [[1, 10, 5]])])] 1 ∧
    ∃ enc, SerializeProfileV2 [("x", [(0, [[1, 10, 5]])])] = some enc ∧
      ∀ t, lookupList (DeserializeProfileV2 (FlexRoot.map enc)) t =
        lookupList [("x", [(0, [[1, 10, 5]])])] t :=
  ⟨by decide, SerializeProfileV2_roundTrip [("x", [(0, [[1, 10, 5]])])] 1 (by decide)⟩

theorem compareOne_eq_false_iff (mins maxs opts : ProfileShapes) (t : String) (d i : Nat) (sv : List Int) :
    compareOne mins maxs opts t d i sv = some false ↔ storedTripleMatches mins maxs opts t d i sv := by
  unfold compareOne storedTripleMatches reqAt
  cases hmv : (lookupD mins t [])[i]? with
  | none =>
    constructor
    · intro hcon
      exact Option.noConfusion hcon
    · rintro ⟨h1, h2, _⟩
      exact (h2 h1.symm).elim
  | some minvec =>
    simp only [Option.some_bind]
    by_cases hz : minvec.length = 0
    · rw [if_pos hz]
      have hemp : minvec = [] := List.length_eq_zero.mp hz
      subst hemp
      constructor
      · intro hcon
        exact Option.noConfusion hcon
      · rintro ⟨h1, h2, _⟩
        exact (h2 h1.symm).elim
    · rw [if_neg hz]
      by_cases hbd : minvec.length - 1 < d
      · rw [if_pos hbd]
        have hnone : minvec[d]? = none := List.getElem?_eq_none (by omega)
        constructor
        · intro hcon
          simp at hcon
        · rintro ⟨h1, h2, _⟩
          rw [hnone] at h1
          exact (h2 h1.symm).elim
      · rw [if_neg hbd]
        cases hmd : minvec[d]? with
        | none =>
          constructor
          · intro hcon
            simp at hcon
          · rintro ⟨h1, h2, _⟩
            exact (h2 h1.symm).elim
        | some mval =>
          simp only [Option.some_bind]
          cases hs0 : sv[0]? with
          | none =>
            constructor
            · intro hcon
              simp at hcon
            · rintro ⟨h1, h2, _⟩
              exact (h2 rfl).elim
          | some s0 =>
            simp only [Option.some_bind]
            by_cases heq : mval ≠ s0
            · rw [if_pos heq]
              constructor
              · intro hcon
                simp at hcon
              · rintro ⟨h1, _, _⟩
                exact (heq (Option.some.inj h1)).elim
            · rw [if_neg heq]
              push_neg at heq
              subst heq
              cases hx1 : ((lookupD maxs t [])[i]?).bind (fun w => w[d]?) with
              | none =>
                constructor
                · intro hcon
                  simp at hcon
                · rintro ⟨_, _, h3, h4, _⟩
                  exact (h4 h3.symm).elim
              | some xval =>
                simp only [Option.some_bind]
                cases hs1 : sv[1]? with
                | none =>
                  constructor
                  · intro hcon
                    simp at hcon
                  · rintro ⟨_, _, _, h4, _⟩
                    exact (h4 rfl).elim
                | some s1 =>
                  simp only [Option.some_bind]
                  by_cases heq1 : xval ≠ s1
                  · rw [if_pos heq1]
                    constructor
                    · intro hcon
                      simp at hcon
                    · rintro ⟨_, _, h3, _, _⟩
                      exact (heq1 (Option.some.inj h3)).elim
                  · rw [if_neg heq1]
                    push_neg at heq1
                    subst heq1
                    cases hx2 : ((lookupD opts t [])[i]?).bind (fun w => w[d]?) with
                    | none =>
                      constructor
                      · intro hcon
                        simp at hcon
                      · rintro ⟨_, _, _, _, h5, h6⟩
                        exact (h6 h5.symm).elim
                    | some oval =>
                      simp only [Option.some_bind]
                      cases hs2 : sv[2]? with
                      | none =>
                        constructor
                        · intro hcon
                          simp at hcon
                        · rintro ⟨_, _, _, _, _, h6⟩
                          exact (h6 rfl).elim
                      | some s2 =>
                        simp only [Option.some_bind]
                        by_cases heq2 : oval ≠ s2
                        · rw [if_pos heq2]
                          constructor
                          · intro hcon
                            simp at hcon
                          · rintro ⟨_, _, _, _, h5, _⟩
                            exact (heq2 (Option.some.inj h5)).elim
                        · rw [if_neg heq2]
                          push_neg at heq2
                          subst heq2
                          constructor
                          · intro _
                            simp
                          · intro _
                            rfl

theorem cmpTriples_eq_false_iff (mins maxs opts : ProfileShapes) (t : String) (d : Nat) :
    ∀ (profs : List (List Int)) (i0 : Nat),
      cmpTriples mins maxs opts t d i0 profs = some false ↔
        ∀ j, j < profs.length → storedTripleMatches mins maxs opts t d (i0 + j) (profs.getD j []) := by
  intro profs
  induction profs with
  | nil =>
    intro i0
    simp [cmpTriples]
  | cons sv rest ih =>
    intro i0
    show (match compareOne mins maxs opts t d i0 sv with
          | some false => cmpTriples mins maxs opts t d (i0 + 1) rest
          | r => r) = some false ↔ _
    cases hc : compareOne mins maxs opts t d i0 sv with
    | none =>
      constructor
      · intro hcon
        exact Option.noConfusion hcon
      · intro hall
        have h0 := (compareOne_eq_false_iff mins maxs opts t d i0 sv).mpr
          (by simpa using hall 0 (by simp))
        rw [hc] at h0
        exact Option.noConfusion h0
    | some b =>
      cases b with
      | true =>
        constructor
        · intro hcon
          simp at hcon
        · intro hall
          have h0 := (compareOne_eq_false_iff mins maxs opts t d i0 sv).mpr
            (by simpa using hall 0 (by simp))
          rw [hc] at h0
          simp at h0
      | false =>
        rw [ih (i0 + 1)]
        constructor
        · intro hall j hj
          cases j with
          | zero =>
            simpa using (compareOne_eq_false_iff mins maxs opts t d i0 sv).mp hc
          | succ j2 =>
            have := hall j2 (by simp at hj; omega)
            rw [show i0 + (j2 + 1) = i0 + 1 + j2 from by omega]
            simpa using this
        · intro hall j hj
          have := hall (j + 1) (by simp; omega)
          rw [show i0 + 1 + j = i0 + (j + 1) from by omega]
          simpa using this

theorem cmpDims_eq_false_iff (mins maxs opts : ProfileShapes) (t : String) :
    ∀ (dims : List (Nat × List (List Int))),
      cmpDims mins maxs opts t dims = some false ↔
        ∀ dp ∈ dims, dp.2.length = GetNumProfiles mins ∧
          ∀ j, j < dp.2.length → storedTripleMatches mins maxs opts t dp.1 j (dp.2.getD j []) := by
  intro dims
  induction dims with
  | nil => simp [cmpDims]
  | cons dp rest ih =>
    obtain ⟨d, profs⟩ := dp
    show (if profs.length ≠ GetNumProfiles mins then some true
          else match cmpTriples mins maxs opts t d 0 profs with
            | some false => cmpDims mins maxs opts t rest
            | r => r) = some false ↔ _
    by_cases hnum : profs.length ≠ GetNumProfiles mins
    · rw [if_pos hnum]
      constructor
      · intro hcon
        simp at hcon
      · intro hall
        exact (hnum (hall (d, profs) (List.mem_cons_self _ _)).1).elim
    · rw [if_neg hnum]
      push_neg at hnum
      cases hc : cmpTriples mins maxs opts t d 0 profs with
      | none =>
        constructor
        · intro hcon
          exact Option.noConfusion hcon
        · intro hall
          have h0 := (cmpTriples_eq_false_iff mins maxs opts t d profs 0).mpr
            (by simpa using (hall (d, profs) (List.mem_cons_self _ _)).2)
          rw [hc] at h0
          exact Option.noConfusion h0
      | some b =>
        cases b with
        | true =>
          constructor
          · intro hcon
            simp at hcon
          · intro hall
            have h0 := (cmpTriples_eq_false_iff mins maxs opts t d profs 0).mpr
              (by simpa using (hall (d, profs) (List.mem_cons_self _ _)).2)
            rw [hc] at h0
            simp at h0
        | false =>
          rw [ih]
          constructor
          · intro hall dp2 hdp2
            rcases List.mem_cons.mp hdp2 with rfl | hdp3
            · exact ⟨hnum, by simpa using (cmpTriples_eq_false_iff mins maxs opts t d profs 0).mp hc⟩
            · exact hall dp2 hdp3
          · intro hall dp2 hdp2
            exact hall dp2 (List.mem_cons_of_mem _ hdp2)

theorem cmpTensors_eq_false_iff (mins maxs opts : ProfileShapes) :
    ∀ (stored : ShapeRanges),
      cmpTensors mins maxs opts stored = some false ↔
        ∀ td ∈ stored, lookupList mins td.1 ≠ none ∧
          ∀ dp ∈ td.2, dp.2.length = GetNumProfiles mins ∧
            ∀ j, j < dp.2.length → storedTripleMatches mins maxs opts td.1 dp.1 j (dp.2.getD j []) := by
  intro stored
  induction stored with
  | nil => simp [cmpTensors]
  | cons td rest ih =>
    obtain ⟨t, dims⟩ := td
    show (if (lookupList mins t).isNone then some true
          else match cmpDims mins maxs opts t dims with
            | some false => cmpTensors mins maxs opts rest
            | r => r) = some false ↔ _
    by_cases hfound : (lookupList mins t).isNone
    · rw [if_pos hfound]
      constructor
      · intro hcon
        simp at hcon
      · intro hall
        have := (hall (t, dims) (List.mem_cons_self _ _)).1
        rw [Option.isNone_iff_eq_none] at hfound
        exact (this hfound).elim
    · rw [if_neg hfound]
      cases hc : cmpDims mins maxs opts t dims with
      | none =>
        constructor
        · intro hcon
          exact Option.noConfusion hcon
        · intro hall
          have h0 := (cmpDims_eq_false_iff mins maxs opts t dims).mpr
            (by simpa using (hall (t, dims) (List.mem_cons_self _ _)).2)
          rw [hc] at h0
          exact Option.noConfusion h0
      | some b =>
        cases b with
        | true =>
          constructor
          · intro hcon
            simp at hcon
          · intro hall
            have h0 := (cmpDims_eq_false_iff mins maxs opts t dims).mpr
              (by simpa using (hall (t, dims) (List.mem_cons_self _ _)).2)
            rw [hc] at h0
            simp at h0
        | false =>
          rw [ih]
          constructor
          · intro hall td2 htd2
            rcases List.mem_cons.mp htd2 with rfl | htd3
            · refine ⟨fun hcon => hfound (by rw [hcon]; rfl), ?_⟩
              simpa using (cmpDims_eq_false_iff mins maxs opts t dims).mp hc
            · exact hall td2 htd3
          · intro hall td2 htd2
            exact hall td2 (List.mem_cons_of_mem _ htd2)

theorem CompareProfiles_eq_false_iff (root : FlexRoot) (mins maxs opts : ProfileShapes) :
    CompareProfiles (some root) mins maxs opts = some false ↔
      profilesCompatible (DeserializeProfileV2 root) mins maxs opts := by
  simp only [CompareProfiles]
  unfold profilesCompatible
  by_cases hlen : mins.length ≠ (DeserializeProfileV2 root).length
  · rw [if_pos hlen]
    constructor
    · intro hcon
      simp at hcon
    · rintro ⟨h1, _⟩
      exact (hlen h1).elim
  · rw [if_neg hlen]
    push_neg at hlen
    rw [cmpTensors_eq_false_iff]
    constructor
    · intro h
      exact ⟨hlen, h⟩
    · rintro ⟨_, h⟩
      exact h

/-- C1 (amended): for every existing and decodable cache file,
`CompareProfiles` returns false if and only if, in addition to every stored
(tensor, dimension, profile-index) triple matching the requested min, max
and opt values by exact integer equality, the structural checks hold: the
requested and stored tensor counts are equal, every stored tensor occurs in
the requested min shapes, and every stored dimension carries exactly
`GetNumProfiles` profiles; matching triples alone do not suffice.  In
particular, for stored `{x: {0: [(1,10,5)]}}` and requested min `{x:[[1]]}`,
max `{x:[[10]]}`, opt `{x:[[5]]}` it returns false. -/
theorem CompareProfiles_false_iff_compatible :
    (∀ (root : FlexRoot) (mins maxs opts : ProfileShapes),
      CompareProfiles (some root) mins maxs opts = some false ↔
        profilesCompatible (DeserializeProfileV2 root) mins maxs opts) ∧
    CompareProfiles (some (FlexRoot.map [("x", [0, 1, 10, 5])]))
      [("x", [[1]])] [("x", [[10]])] [("x", [[5]])] = some false :=
  ⟨CompareProfiles_eq_false_iff, by decide⟩

/-- C1 counterexample: an existing, decodable cache file whose stored set is
empty, with a non-empty requested mapping: every stored (tensor, dimension,
profile-index) triple matches vacuously, yet `CompareProfiles` returns true
(the tensor-count check at line 316 fires), refuting the claimed
"if and only if". -/
theorem CompareProfiles_claim_counterexample :
    allStoredTriplesMatch (DeserializeProfileV2 (FlexRoot.map []))
      [("x", [[1]])] [("x", [[10]])] [("x", [[5]])] ∧
    CompareProfiles (some (FlexRoot.map []))
      [("x", [[1]])] [("x", [[10]])] [("x", [[5]])] = some true := by
  constructor
  · decide
  · decide

theorem compareOne_ne_none (mins maxs opts : ProfileShapes) (t : String) (d i : Nat) (sv : List Int)
    (hok : minVecOk mins maxs opts t i) (hsv : sv.length = 3) :
    compareOne mins maxs opts t d i sv ≠ none := by
  obtain ⟨w, hw, hwne, hmx, hop⟩ := hok
  obtain ⟨a, b, c, hsv3⟩ : ∃ a b c, sv = [a, b, c] := by
    match sv, hsv with
    | [a, b, c], _ => exact ⟨a, b, c, rfl⟩
  subst hsv3
  have hlz : w.length ≠ 0 := fun hc => hwne (List.length_eq_zero.mp hc)
  unfold compareOne
  rw [hw]
  simp only []
  rw [if_neg hlz]
  by_cases hbd : w.length - 1 < d
  · rw [if_pos hbd]
    exact Option.noConfusion
  · rw [if_neg hbd]
    have hd : d < w.length := by omega
    rw [List.getElem?_eq_getElem hd]
    simp only [Option.some_bind]
    show (some a).bind _ ≠ none
    simp only [Option.some_bind]
    by_cases heq : w[d] ≠ a
    · rw [if_pos heq]
      exact Option.noConfusion
    · rw [if_neg heq]
      obtain ⟨mv, hmv1, hmv2⟩ := Option.map_eq_some'.mp hmx
      have hdm : d < mv.length := by omega
      have hreqm : reqAt maxs t i d = some mv[d] := by
        unfold reqAt
        rw [hmv1]
        simp only [Option.some_bind]
        exact List.getElem?_eq_getElem hdm
      rw [hreqm]
      simp only [Option.some_bind]
      show (some b).bind _ ≠ none
      simp only [Option.some_bind]
      by_cases heq1 : mv[d] ≠ b
      · rw [if_pos heq1]
        exact Option.noConfusion
      · rw [if_neg heq1]
        obtain ⟨ov, hov1, hov2⟩ := Option.map_eq_some'.mp hop
        have hdo : d < ov.length := by omega
        have hreqo : reqAt opts t i d = some ov[d] := by
          unfold reqAt
          rw [hov1]
          simp only [Option.some_bind]
          exact List.getElem?_eq_getElem hdo
        rw [hreqo]
        simp only [Option.some_bind]
        show (some c).bind _ ≠ none
        simp only [Option.some_bind]
        by_cases heq2 : ov[d] ≠ c
        · rw [if_pos heq2]
          exact Option.noConfusion
        · rw [if_neg heq2]
          exact Option.noConfusion

theorem cmpTriples_ne_none (mins maxs opts : ProfileShapes) (t : String) (d : Nat) :
    ∀ (profs : List (List Int)) (i0 : Nat),
      (∀ j, j < profs.length → minVecOk mins maxs opts t (i0 + j) ∧ (profs.getD j []).length = 3) →
      cmpTriples mins maxs opts t d i0 profs ≠ none := by
  intro profs
  induction profs with
  | nil =>
    intro i0 h
    exact Option.noConfusion
  | cons sv rest ih =>
    intro i0 h
    obtain ⟨hok0, hsv0⟩ := h 0 (by simp)
    rw [Nat.add_zero] at hok0
    show (match compareOne mins maxs opts t d i0 sv with
          | some false => cmpTriples mins maxs opts t d (i0 + 1) rest
          | r => r) ≠ none
    cases hc : compareOne mins maxs opts t d i0 sv with
    | none => exact absurd hc (compareOne_ne_none mins maxs opts t d i0 sv hok0 (by simpa using hsv0))
    | some bb =>
      cases bb with
      | true => exact Option.noConfusion
      | false =>
        refine ih (i0 + 1) ?_
        intro j hj
        have := h (j + 1) (by simp; omega)
        rw [show i0 + (j + 1) = i0 + 1 + j from by omega] at this
        simpa using this

theorem cmpDims_ne_none (mins maxs opts : ProfileShapes) (t : String)
    (hmin : ∀ j, j < GetNumProfiles mins → minVecOk mins maxs opts t j) :
    ∀ (dims : List (Nat × List (List Int))),
      (∀ dp ∈ dims, ∀ sv ∈ dp.2, sv.length = 3) →
      cmpDims mins maxs opts t dims ≠ none := by
  intro dims
  induction dims with
  | nil =>
    intro h
    exact Option.noConfusion
  | cons dp rest ih =>
    intro h
    obtain ⟨d, profs⟩ := dp
    show (if profs.length ≠ GetNumProfiles mins then some true
          else match cmpTriples mins maxs opts t d 0 profs with
            | some false => cmpDims mins maxs opts t rest
            | r => r) ≠ none
    by_cases hnum : profs.length ≠ GetNumProfiles mins
    · rw [if_pos hnum]
      exact Option.noConfusion
    · rw [if_neg hnum]
      push_neg at hnum
      have htr : cmpTriples mins maxs opts t d 0 profs ≠ none := by
        refine cmpTriples_ne_none mins maxs opts t d profs 0 ?_
        intro j hj
        refine ⟨by rw [Nat.zero_add]; exact hmin j (by omega), ?_⟩
        have hmem : profs.getD j [] ∈ profs := by
          rw [List.getD_eq_getElem _ _ hj]
          exact List.getElem_mem _
        exact h (d, profs) (List.mem_cons_self _ _) _ hmem
      cases hc : cmpTriples mins maxs opts t d 0 profs with
      | none => exact absurd hc htr
      | some bb =>
        cases bb with
        | true => exact Option.noConfusion
        | false => exact ih (fun dp2 hdp2 => h dp2 (List.mem_cons_of_mem _ hdp2))

theorem cmpTensors_ne_none (mins maxs opts : ProfileShapes)
    (hmin : ∀ t, lookupList mins t ≠ none → ∀ j, j < GetNumProfiles mins → minVecOk mins maxs opts t j) :
    ∀ (stored : ShapeRanges),
      (∀ td ∈ stored, ∀ dp ∈ td.2, ∀ sv ∈ dp.2, sv.length = 3) →
      cmpTensors mins maxs opts stored ≠ none := by
  intro stored
  induction stored with
  | nil =>
    intro h
    exact Option.noConfusion
  | cons td rest ih =>
    intro h
    obtain ⟨t, dims⟩ := td
    show (if (lookupList mins t).isNone then some true
          else match cmpDims mins maxs opts t dims with
            | some false => cmpTensors mins maxs opts rest
            | r => r) ≠ none
    by_cases hfound : (lookupList mins t).isNone
    · rw [if_pos hfound]
      exact Option.noConfusion
    · rw [if_neg hfound]
      have hlt : lookupList mins t ≠ none := fun hc => hfound (by rw [hc]; rfl)
      have hdims : cmpDims mins maxs opts t dims ≠ none :=
        cmpDims_ne_none mins maxs opts t (hmin t hlt) dims
          (fun dp hdp => h (t, dims) (List.mem_cons_self _ _) dp hdp)
      cases hc : cmpDims mins maxs opts t dims with
      | none => exact absurd hc hdims
      | some bb =>
        cases bb with
        | true => exact Option.noConfusion
        | false => exact ih (fun td2 htd2 => h td2 (List.mem_cons_of_mem _ htd2))

theorem mem_setAssoc {κ α : Type} [DecidableEq κ] : ∀ (m : List (κ × α)) (k : κ) (v : α) (x : κ × α), x ∈ setAssoc m k v → x ∈ m ∨ x = (k, v) := by
  intro m k v x h
  induction m with
  | nil =>
    simp only [setAssoc] at h
    exact Or.inr (by simpa using h)
  | cons hd tl ih =>
    obtain ⟨k2, w⟩ := hd
    by_cases hk : k = k2
    · rw [show setAssoc ((k2, w) :: tl) k v = (k2, v) :: tl from by simp [setAssoc, hk]] at h
      rcases List.mem_cons.mp h with rfl | h2
      · exact Or.inr (by rw [hk])
      · exact Or.inl (List.mem_cons_of_mem _ h2)
    · rw [show setAssoc ((k2, w) :: tl) k v = (k2, w) :: setAssoc tl k v from by simp [setAssoc, hk]] at h
      rcases List.mem_cons.mp h with rfl | h2
      · exact Or.inl (List.mem_cons_self _ _)
      · rcases ih h2 with h3 | h3
        · exact Or.inl (List.mem_cons_of_mem _ h3)
        · exact Or.inr h3

theorem appendAt_forall {κ α : Type} [DecidableEq κ] (P : α → Prop) : ∀ (m : List (κ × List α)) (k : κ) (v : α),
    (∀ q ∈ m, ∀ x ∈ q.2, P x) → P v → ∀ q ∈ appendAt m k v, ∀ x ∈ q.2, P x := by
  intro m k v hm hv
  induction m with
  | nil =>
    intro q hq x hx
    simp only [appendAt] at hq
    simp at hq
    subst hq
    simp at hx
    subst hx
    exact hv
  | cons hd tl ih =>
    obtain ⟨k2, w⟩ := hd
    intro q hq x hx
    by_cases hk : k = k2
    · rw [show appendAt ((k2, w) :: tl) k v = (k2, w ++ [v]) :: tl from by simp [appendAt, hk]] at hq
      rcases List.mem_cons.mp hq with rfl | hq2
      · rcases List.mem_append.mp hx with hx1 | hx2
        · exact hm (k2, w) (List.mem_cons_self _ _) x hx1
        · simp at hx2
          subst hx2
          exact hv
      · exact hm q (List.mem_cons_of_mem _ hq2) x hx
    · rw [show appendAt ((k2, w) :: tl) k v = (k2, w) :: appendAt tl k v from by simp [appendAt, hk]] at hq
      rcases List.mem_cons.mp hq with rfl | hq2
      · exact hm (k2, w) (List.mem_cons_self _ _) x hx
      · exact ih (fun q2 hq2b => hm q2 (List.mem_cons_of_mem _ hq2b)) q hq2 x hx

theorem decodeFlatAux_triples_len : ∀ (n : Nat) (flat : List Int), flat.length = n →
    ∀ (acc : List (Nat × List (List Int))),
      (∀ dp ∈ acc, ∀ sv ∈ dp.2, sv.length = 3) →
      ∀ dp ∈ decodeFlatAux acc flat, ∀ sv ∈ dp.2, sv.length = 3 := by
  intro n
  induction n using Nat.strong_induction_on with
  | _ n ih =>
    intro flat hlen acc hacc
    rcases flat with _ | ⟨a, _ | ⟨b, _ | ⟨c, _ | ⟨e, rest⟩⟩⟩⟩
    · exact hacc
    · exact hacc
    · exact hacc
    · exact hacc
    · simp only [List.length_cons] at hlen
      show ∀ dp ∈ decodeFlatAux (appendAt acc (toNat64 a) [b, c, e]) rest, ∀ sv ∈ dp.2, sv.length = 3
      exact ih (n - 4) (by omega) rest (by omega) _
        (appendAt_forall (fun sv => sv.length = 3) acc (toNat64 a) [b, c, e] hacc rfl)

theorem deserialize_triples_len (root : FlexRoot) :
    ∀ td ∈ DeserializeProfileV2 root, ∀ dp ∈ td.2, ∀ sv ∈ dp.2, sv.length = 3 := by
  unfold DeserializeProfileV2
  have hgen : ∀ (entries : List (String × List Int)) (acc : ShapeRanges),
      (∀ td ∈ acc, ∀ dp ∈ td.2, ∀ sv ∈ dp.2, sv.length = 3) →
      ∀ td ∈ entries.foldl (fun acc2 e => setAssoc acc2 e.1 (decodeFlatAux [] e.2)) acc,
        ∀ dp ∈ td.2, ∀ sv ∈ dp.2, sv.length = 3 := by
    intro entries
    induction entries with
    | nil => exact fun acc h => h
    | cons e rest ih =>
      intro acc hacc
      simp only [List.foldl_cons]
      refine ih _ ?_
      intro td htd
      rcases mem_setAssoc acc e.1 (decodeFlatAux [] e.2) td htd with h1 | h1
      · exact hacc td h1
      · subst h1
        exact decodeFlatAux_triples_len e.2.length e.2 rfl [] (by simp)
  exact hgen (asMap root) [] (by simp)

/-- C10 (amended): the preconditions of the claim (requested shapes pass
`ValidateProfileShapes`, min vectors non-empty) do not prevent out-of-bounds
reads; with the strengthened preconditions that every tensor of the min map
carries exactly `GetNumProfiles` profiles and that, per tensor and profile,
the max and opt flattened vectors have the same length as the (non-empty)
min vector, every index `CompareProfiles` performs into the requested min,
max and opt shape vectors is within bounds (the result is never the
undefined-behaviour marker `none`), and whenever some stored dimension index
is at least the length of the corresponding requested min vector the
function returns true (must rebuild). -/
theorem CompareProfiles_inbounds (root : FlexRoot) (mins maxs opts : ProfileShapes)
    (_hv : ValidateProfileShapes mins maxs opts = true)
    (hu : ∀ tv ∈ mins, tv.2.length = GetNumProfiles mins)
    (hs : ∀ tv ∈ mins, ∀ i, i < tv.2.length →
      tv.2.getD i [] ≠ [] ∧
      ((lookupD maxs tv.1 []).getD i []).length = (tv.2.getD i []).length ∧
      ((lookupD opts tv.1 []).getD i []).length = (tv.2.getD i []).length) :
    CompareProfiles (some root) mins maxs opts ≠ none ∧
    ((∃ td ∈ DeserializeProfileV2 root, ∃ dp ∈ td.2, ∃ j, j < dp.2.length ∧
        ((lookupD mins td.1 []).getD j []).length ≤ dp.1) →
      CompareProfiles (some root) mins maxs opts = some true) := by
  have hminok : ∀ t, lookupList mins t ≠ none → ∀ j, j < GetNumProfiles mins → minVecOk mins maxs opts t j := by
    intro t hlt j hj
    obtain ⟨v, hv2⟩ : ∃ v, lookupList mins t = some v := by
      cases h : lookupList mins t with
      | none => exact absurd h hlt
      | some v => exact ⟨v, rfl⟩
    have hmem := lookupList_eq_some_mem hv2
    have hvlen := hu (t, v) hmem
    have hjlen : j < v.length := by
      show j < v.length
      rw [show v.length = GetNumProfiles mins from hvlen]
      exact hj
    obtain ⟨hne0, hmx0, hop0⟩ := hs (t, v) hmem j hjlen
    have hne : v.getD j [] ≠ [] := hne0
    have hmx : ((lookupD maxs t []).getD j []).length = (v.getD j []).length := hmx0
    have hop : ((lookupD opts t []).getD j []).length = (v.getD j []).length := hop0
    have hDmin : lookupD mins t [] = v := by simp [lookupD, hv2]
    refine ⟨v.getD j [], ?_, hne, ?_, ?_⟩
    · rw [hDmin, List.getD_eq_getElem v [] hjlen]
      exact List.getElem?_eq_getElem hjlen
    · have hlen0 : (v.getD j []).length ≠ 0 := fun hc => hne (List.length_eq_zero.mp hc)
      have hjm : j < (lookupD maxs t []).length := by
        by_contra hcon
        push_neg at hcon
        rw [List.getD_eq_default _ _ hcon] at hmx
        simp only [List.length_nil] at hmx
        omega
      rw [List.getElem?_eq_getElem hjm]
      simp only [Option.map_some']
      rw [← List.getD_eq_getElem (lookupD maxs t []) [] hjm]
      rw [hmx]
    · have hlen0 : (v.getD j []).length ≠ 0 := fun hc => hne (List.length_eq_zero.mp hc)
      have hjo : j < (lookupD opts t []).length := by
        by_contra hcon
        push_neg at hcon
        rw [List.getD_eq_default _ _ hcon] at hop
        simp only [List.length_nil] at hop
        omega
      rw [List.getElem?_eq_getElem hjo]
      simp only [Option.map_some']
      rw [← List.getD_eq_getElem (lookupD opts t []) [] hjo]
      rw [hop]
  have hnn : CompareProfiles (some root) mins maxs opts ≠ none := by
    simp only [CompareProfiles]
    by_cases hlen : mins.length ≠ (DeserializeProfileV2 root).length
    · rw [if_pos hlen]
      exact Option.noConfusion
    · rw [if_neg hlen]
      exact cmpTensors_ne_none mins maxs opts hminok (DeserializeProfileV2 root) (deserialize_triples_len root)
  refine ⟨hnn, ?_⟩
  intro hoob
  cases hres : CompareProfiles (some root) mins maxs opts with
  | none => exact (hnn hres).elim
  | some bb =>
    cases bb with
    | true => rfl
    | false =>
      obtain ⟨hlen2, hall⟩ := (CompareProfiles_eq_false_iff root mins maxs opts).mp hres
      obtain ⟨td, htd, dp, hdp, j, hjlt, hjge⟩ := hoob
      obtain ⟨hfound, hdims⟩ := hall td htd
      obtain ⟨hnum, htrip⟩ := hdims dp hdp
      obtain ⟨h1, h2, _⟩ := htrip j hjlt
      have h1s : reqAt mins td.1 j dp.1 ≠ none := by
        rw [h1]
        exact h2
      unfold reqAt at h1s
      cases hw : (lookupD mins td.1 [])[j]? with
      | none =>
        rw [hw] at h1s
        exact (h1s rfl).elim
      | some w =>
        rw [hw] at h1s
        simp only [Option.some_bind] at h1s
        have hdlt : dp.1 < w.length := by
          by_contra hcon
          push_neg at hcon
          exact h1s (List.getElem?_eq_none hcon)
        rw [List.getD_eq_getElem?_getD, hw] at hjge
        simp at hjge
        exact absurd hjge (by omega)

/-- C10 counterexample: the requested shapes pass `ValidateProfileShapes`
and every min vector is non-empty, yet `CompareProfiles` performs an
out-of-bounds read: the stored dimension index 1 passes the bound check
against the min vector `[1, 2]` but the max vector `[10]` has no index 1
(only the min vector is bound-checked), so the run hits undefined behaviour
(`none`) instead of staying in bounds. -/
theorem CompareProfiles_oob_counterexample :
    ValidateProfileShapes [("x", [[1, 2]])] [("x", [[10]])] [("x", [[5, 5]])] = true ∧
    (∀ tv ∈ [(("x" : String), [[(1 : Int), 2]])], ∀ w ∈ tv.2, w ≠ ([] : List Int)) ∧
    CompareProfiles (some (FlexRoot.map [("x", [1, 2, 10, 5])]))
      [("x", [[1, 2]])] [("x", [[10]])] [("x", [[5, 5]])] = none := by
  refine ⟨by decide, by decide, by decide⟩

theorem CompareProfiles_inbounds_witness :
    ValidateProfileShapes [("x", [[1]])] [("x", [[10]])] [("x", [[5]])] = true ∧
    (∀ tv ∈ [(("x" : String), [[(1 : Int)]])], tv.2.length = GetNumProfiles [("x", [[1]])]) ∧
    (∀ tv ∈ [(("x" : String), [[(1 : Int)]])], ∀ i, i < tv.2.length →
      tv.2.getD i [] ≠ [] ∧
      ((lookupD ([("x", [[10]])] : ProfileShapes) tv.1 []).getD i []).length = (tv.2.getD i []).length ∧
      ((lookupD ([("x", [[5]])] : ProfileShapes) tv.1 []).getD i []).length = (tv.2.getD i []).length) ∧
    (CompareProfiles (some (FlexRoot.map [("x", [5, 1, 10, 5])])) [("x", [[1]])] [("x", [[10]])] [("x", [[5]])] ≠ none ∧
     ((∃ td ∈ DeserializeProfileV2 (FlexRoot.map [("x", [5, 1, 10, 5])]), ∃ dp ∈ td.2, ∃ j, j < dp.2.length ∧
         ((lookupD ([("x", [[1]])] : ProfileShapes) td.1 []).getD j []).length ≤ dp.1) →
       CompareProfiles (some (FlexRoot.map [("x", [5, 1, 10, 5])])) [("x", [[1]])] [("x", [[10]])] [("x", [[5]])] = some true)) :=
  ⟨by decide, by decide, by decide,
   CompareProfiles_inbounds (FlexRoot.map [("x", [5, 1, 10, 5])])
     [("x", [[1]])] [("x", [[10]])] [("x", [[5]])] (by decide) (by decide) (by decide)⟩
